import Mathlib

set_option maxRecDepth 8192

/-!
A shallow embedding of the sentence-splitting pipeline of `text_splitter.py`
(class `TextSplitter`) and of the timing decorator of `timer.py`.

Strings are modelled as `List Char` (`Str`); the `String` wrappers mirror the
Python methods.  Python's `str.replace`, `str.split` and `re.sub` are modelled
by fuel-based structural recursions (`replaceAllF`, `splitOnF`, `substF`) whose
fuel is fixed to the length of the scanned text, so that every definition
reduces by kernel computation.  Each of the ten `re.sub` rules of
`process_substitutions` is modelled as a matcher `Str → Option (Str × Nat)`
returning the replacement text and the number of characters consumed beyond
the first (so every match consumes at least one character, exactly as the
regex patterns do); alternations are tried in the order they occur in the
regex, with the same backtracking behaviour.
-/

namespace TextSplitter

/-- Characters treated as whitespace by Python `str` regular expressions
(the class matched by a backslash-s pattern) and removed by `str.strip()`. -/
def wsChars : List Char :=
  [' ', '\t', '\n', '\r', '\x0b', '\x0c',
   '\x1c', '\x1d', '\x1e', '\x1f', '\x85', ' ',
   ' ', ' ', ' ', ' ', ' ', ' ', ' ',
   ' ', ' ', ' ', ' ', ' ',
   ' ', ' ', ' ', ' ', '　']

def isPyWs (c : Char) : Bool := wsChars.contains c

/-- The regex character class `[A-Za-z]` (pattern `alphabets`). -/
def isAlphaCh (c : Char) : Bool := ('A' ≤ c && c ≤ 'Z') || ('a' ≤ c && c ≤ 'z')

/-- The regex character class `[A-Z]`. -/
def isUpperCh (c : Char) : Bool := ('A' ≤ c && c ≤ 'Z')

/-- The regex character class `[0-9]` (pattern `digits`). -/
def isDigitCh (c : Char) : Bool := ('0' ≤ c && c ≤ '9')

abbrev Str := List Char

/-- The literal placeholder token `<prd>`. -/
def prdTok : Str := ['<', 'p', 'r', 'd', '>']

/-- The literal hard-boundary token `<stop>`. -/
def stopTok : Str := ['<', 's', 't', 'o', 'p', '>']

/-- Bounded left-to-right replacement with the semantics of Python
`str.replace`: leftmost non-overlapping matches, replacement text not
rescanned, scanning resumes after the matched span. -/
def replaceAllF (p r : Str) : Nat → Str → Str
  | _, [] => []
  | 0, l => l
  | n+1, c :: cs =>
    if p.isPrefixOf (c :: cs) then r ++ replaceAllF p r n (cs.drop (p.length - 1))
    else c :: replaceAllF p r n cs

/-- Python `str.replace` (for a non-empty pattern). -/
def replaceAll (p r l : Str) : Str := replaceAllF p r l.length l

/-- Python `p in l` for strings: whether `p` occurs as a contiguous substring. -/
def containsSub (p : Str) : Str → Bool
  | [] => p.isPrefixOf []
  | c :: cs => p.isPrefixOf (c :: cs) || containsSub p cs

/-- Bounded split with the semantics of Python `str.split(sep)` for a
non-empty separator: fragments between leftmost non-overlapping occurrences,
empty fragments kept. -/
def splitOnF (sep : Str) : Nat → Str → List Str
  | _, [] => [[]]
  | 0, l => [l]
  | n+1, c :: cs =>
    if sep.isPrefixOf (c :: cs) then [] :: splitOnF sep n (cs.drop (sep.length - 1))
    else
      match splitOnF sep n cs with
      | [] => [[c]]
      | f :: rest => (c :: f) :: rest

/-- Python `str.split(sep)` (for a non-empty separator). -/
def splitOn (sep l : Str) : List Str := splitOnF sep l.length l

/-- Bounded scan applying one `re.sub` rule: at every position the matcher is
tried; on a match the replacement is emitted and scanning resumes after the
matched span (`k + 1` characters); otherwise the character is copied. -/
def substF (tm : Str → Option (Str × Nat)) : Nat → Str → Str
  | _, [] => []
  | 0, l => l
  | n+1, c :: cs =>
    match tm (c :: cs) with
    | some (repl, k) => repl ++ substF tm n (cs.drop k)
    | none => c :: substF tm n cs

/-- One `re.sub` pass over a buffer. -/
def subst (tm : Str → Option (Str × Nat)) (l : Str) : Str := substF tm l.length l

/-- Python `str.strip()` of trailing whitespace. -/
def dropTrail (l : Str) : Str := (l.reverse.dropWhile isPyWs).reverse

/-- Python `str.strip()`: removes leading and trailing whitespace. -/
def strip (l : Str) : Str := dropTrail (l.dropWhile isPyWs)

/-- Prop form of "p is a leading segment of l". -/
def IsStart (p l : Str) : Prop := ∃ t, p ++ t = l

/-- Prop form of "p occurs as a contiguous substring of l". -/
def Within (p l : Str) : Prop := ∃ a b, l = a ++ p ++ b

/-- Characters that the substitution rules may introduce besides characters
copied from the matched text: the marker tokens and the literal spaces of the
replacement templates. -/
def insChars : Str := ['<', 'p', 'r', 'd', 's', 't', 'o', '>', ' ']

/-- Restore every placeholder token to a literal period. -/
def erasePrd (l : Str) : Str := replaceAll prdTok ['.'] l

/-- Delete every hard-boundary token. -/
def eraseStop (l : Str) : Str := replaceAll stopTok [] l

/-- Rewrite every hard-boundary token back to a literal period. -/
def eraseStopDot (l : Str) : Str := replaceAll stopTok ['.'] l

/-- First-alternative-wins combination, the semantics of a regex alternation
whose alternatives are tried left to right. -/
def orTry {α : Type} (a b : Option α) : Option α :=
  match a with
  | some x => some x
  | none => b

/-! ### The ten substitution rules (source lines 91-102)

Rule order and alternation order follow the regex literals `prefixes`,
`websites`, `digits`, `alphabets`, `acronyms`, `starters`, `suffixes`;
each alternation is written as an explicit left-to-right cascade. -/

/-- Rule 1: `re.sub(prefixes, "\1<prd>", text)` with
`prefixes = "(Mr|St|Mrs|Ms|Dr)[.]"`. -/
def tryTitle (l : Str) : Option (Str × Nat) :=
  if ['M','r','.'].isPrefixOf l then some (['M','r'] ++ prdTok, 2)
  else if ['S','t','.'].isPrefixOf l then some (['S','t'] ++ prdTok, 2)
  else if ['M','r','s','.'].isPrefixOf l then some (['M','r','s'] ++ prdTok, 3)
  else if ['M','s','.'].isPrefixOf l then some (['M','s'] ++ prdTok, 2)
  else if ['D','r','.'].isPrefixOf l then some (['D','r'] ++ prdTok, 2)
  else none

/-- Rule 2: `re.sub(websites, "<prd>\1", text)` with
`websites = "[.](com|net|org|io|gov|uk)"`. -/
def trySite (l : Str) : Option (Str × Nat) :=
  if ['.','c','o','m'].isPrefixOf l then some (prdTok ++ ['c','o','m'], 3)
  else if ['.','n','e','t'].isPrefixOf l then some (prdTok ++ ['n','e','t'], 3)
  else if ['.','o','r','g'].isPrefixOf l then some (prdTok ++ ['o','r','g'], 3)
  else if ['.','i','o'].isPrefixOf l then some (prdTok ++ ['i','o'], 2)
  else if ['.','g','o','v'].isPrefixOf l then some (prdTok ++ ['g','o','v'], 3)
  else if ['.','u','k'].isPrefixOf l then some (prdTok ++ ['u','k'], 2)
  else none

/-- Rule 3: `re.sub(digits + "[.]" + digits, "\1<prd>\2", text)`. -/
def tryDecimal : Str → Option (Str × Nat)
  | a :: d :: b :: _ =>
    if isDigitCh a && d == '.' && isDigitCh b then some ([a] ++ prdTok ++ [b], 2) else none
  | _ => none

/-- Rule 4: `re.sub("\s" + alphabets + "[.] ", " \1<prd> ", text)`.  Note that
the replacement starts with a literal space, so the matched whitespace
character is rewritten to a space. -/
def tryInitialWs : Str → Option (Str × Nat)
  | w :: a :: d :: sp :: _ =>
    if isPyWs w && isAlphaCh a && d == '.' && sp == ' ' then
      some ([' ', a] ++ prdTok ++ [' '], 3)
    else none
  | _ => none

/-- One `starters` alternative ending in a whitespace class (`He\s` etc.):
the matched whitespace character becomes part of the group. -/
def starterWord (w : Str) (l : Str) : Option Str :=
  if w.isPrefixOf l then
    match l.drop w.length with
    | c :: _ => if isPyWs c then some (w ++ [c]) else none
    | [] => none
  else none

/-- One bare-word `starters` alternative (`Mr`, `Mrs`, `Ms`, `Dr`, `Wherever`). -/
def starterPlain (w : Str) (l : Str) : Option Str :=
  if w.isPrefixOf l then some w else none

/-- Match the `starters` group
`(Mr|Mrs|Ms|Dr|He\s|She\s|It\s|They\s|Their\s|Our\s|We\s|But\s|However\s|That\s|This\s|Wherever)`
at the head of `l`, returning the matched text (the `\2` group). -/
def tryStarter (l : Str) : Option Str :=
  orTry (starterPlain ['M','r'] l) (orTry (starterPlain ['M','r','s'] l)
  (orTry (starterPlain ['M','s'] l) (orTry (starterPlain ['D','r'] l)
  (orTry (starterWord ['H','e'] l) (orTry (starterWord ['S','h','e'] l)
  (orTry (starterWord ['I','t'] l) (orTry (starterWord ['T','h','e','y'] l)
  (orTry (starterWord ['T','h','e','i','r'] l) (orTry (starterWord ['O','u','r'] l)
  (orTry (starterWord ['W','e'] l) (orTry (starterWord ['B','u','t'] l)
  (orTry (starterWord ['H','o','w','e','v','e','r'] l)
  (orTry (starterWord ['T','h','a','t'] l) (orTry (starterWord ['T','h','i','s'] l)
  (starterPlain ['W','h','e','r','e','v','e','r'] l)))))))))))))))

/-- The two-pair reading of the `acronyms` group (optional third pair not
taken), continued by the literal space and the `starters` group. -/
def acronym2At (a b : Char) (rest : Str) : Option (Str × Nat) :=
  match rest with
  | sp :: rest3 =>
    if sp == ' ' then
      match tryStarter rest3 with
      | some st => some ([a, '.', b, '.'] ++ stopTok ++ [' '] ++ st, 4 + st.length)
      | none => none
    else none
  | [] => none

/-- Rule 5: `re.sub(acronyms + " " + starters, "\1<stop> \2", text)` with
`acronyms = "([A-Z][.][A-Z][.](?:[A-Z][.])?)"`.  The optional third
letter-period pair is tried greedily first, then without it, exactly as the
regex backtracks. -/
def tryAcronymStarter : Str → Option (Str × Nat)
  | a :: d1 :: b :: d2 :: rest =>
    if isUpperCh a && d1 == '.' && isUpperCh b && d2 == '.' then
      match rest with
      | c :: d3 :: sp :: rest2 =>
        if isUpperCh c && d3 == '.' && sp == ' ' then
          match tryStarter rest2 with
          | some st =>
            some ([a, '.', b, '.', c, '.'] ++ stopTok ++ [' '] ++ st, 6 + st.length)
          | none => acronym2At a b rest
        else acronym2At a b rest
      | _ => acronym2At a b rest
    else none
  | _ => none

/-- Rule 6: `re.sub(alphabets + "[.]" + alphabets + "[.]" + alphabets + "[.]",
"\1<prd>\2<prd>\3<prd>", text)`. -/
def tryAcronym3 : Str → Option (Str × Nat)
  | a :: d1 :: b :: d2 :: c :: d3 :: _ =>
    if isAlphaCh a && d1 == '.' && isAlphaCh b && d2 == '.' && isAlphaCh c && d3 == '.' then
      some ([a] ++ prdTok ++ [b] ++ prdTok ++ [c] ++ prdTok, 5)
    else none
  | _ => none

/-- Rule 7: `re.sub(alphabets + "[.]" + alphabets + "[.]", "\1<prd>\2<prd>", text)`. -/
def tryAcronym2 : Str → Option (Str × Nat)
  | a :: d1 :: b :: d2 :: _ =>
    if isAlphaCh a && d1 == '.' && isAlphaCh b && d2 == '.' then
      some ([a] ++ prdTok ++ [b] ++ prdTok, 3)
    else none
  | _ => none

/-- One `suffixes` alternative of rule 8: the word, a period, a space, then
the `starters` group; the matched period is not reproduced by the
replacement. -/
def suffixStarterAt (w : Str) (rest : Str) : Option (Str × Nat) :=
  if (w ++ ['.', ' ']).isPrefixOf rest then
    match tryStarter (rest.drop (w.length + 2)) with
    | some st => some ([' '] ++ w ++ stopTok ++ [' '] ++ st, w.length + 2 + st.length)
    | none => none
  else none

/-- Rule 8: `re.sub(" " + suffixes + "[.] " + starters, " \1<stop> \2", text)`
with `suffixes = "(Inc|Ltd|Jr|Sr|Co)"`. -/
def trySuffixStarter : Str → Option (Str × Nat)
  | sp :: rest =>
    if sp == ' ' then
      orTry (suffixStarterAt ['I','n','c'] rest) (orTry (suffixStarterAt ['L','t','d'] rest)
      (orTry (suffixStarterAt ['J','r'] rest) (orTry (suffixStarterAt ['S','r'] rest)
      (suffixStarterAt ['C','o'] rest))))
    else none
  | [] => none

/-- One `suffixes` alternative of rule 9: the word followed by a period. -/
def suffixPrdAt (w : Str) (rest : Str) : Option (Str × Nat) :=
  if (w ++ ['.']).isPrefixOf rest then
    some ([' '] ++ w ++ prdTok, w.length + 1)
  else none

/-- Rule 9: `re.sub(" " + suffixes + "[.]", " \1<prd>", text)`. -/
def trySuffix : Str → Option (Str × Nat)
  | sp :: rest =>
    if sp == ' ' then
      orTry (suffixPrdAt ['I','n','c'] rest) (orTry (suffixPrdAt ['L','t','d'] rest)
      (orTry (suffixPrdAt ['J','r'] rest) (orTry (suffixPrdAt ['S','r'] rest)
      (suffixPrdAt ['C','o'] rest))))
    else none
  | [] => none

/-- Rule 10: `re.sub(" " + alphabets + "[.]", " \1<prd>", text)`. -/
def tryInitial : Str → Option (Str × Nat)
  | sp :: a :: d :: _ =>
    if sp == ' ' && isAlphaCh a && d == '.' then some ([' ', a] ++ prdTok, 2) else none
  | _ => none

/-- `TextSplitter.process_substitutions` on the character-list level:
the ten `re.sub` passes in source order (lines 91-102). -/
def substitutionsCore (l : Str) : Str :=
  let l := subst tryTitle l
  let l := subst trySite l
  let l := subst tryDecimal l
  let l := subst tryInitialWs l
  let l := subst tryAcronymStarter l
  let l := subst tryAcronym3 l
  let l := subst tryAcronym2 l
  let l := subst trySuffixStarter l
  let l := subst trySuffix l
  subst tryInitial l

/-- `TextSplitter.process_substitutions`. -/
def process_substitutions (s : String) : String := String.mk (substitutionsCore s.data)

/-- `TextSplitter.process_special_cases`.  The Python body rewrites URLs,
ellipses and the literal `"Ph.D."` into a local variable, but the function
has no `return` statement, so (the body being pure) every call evaluates to
`None`; the computed text is discarded.  The function is moreover never
invoked by `split_into_sentences`. -/
def process_special_cases (_text : String) : Option String := none

/-- `TextSplitter.process_special_chars` on the character-list level: the four
conditional quote/punctuation swaps of lines 150-157. -/
def specialCharsCore (l : Str) : Str :=
  let l := if containsSub ['”'] l then replaceAll ['.', '”'] ['”', '.'] l else l
  let l := if containsSub ['"'] l then replaceAll ['.', '"'] ['"', '.'] l else l
  let l := if containsSub ['!'] l then replaceAll ['!', '"'] ['"', '!'] l else l
  if containsSub ['?'] l then replaceAll ['?', '"'] ['"', '?'] l else l

/-- `TextSplitter.process_special_chars`. -/
def process_special_chars (s : String) : String := String.mk (specialCharsCore s.data)

/-- `TextSplitter.replace_placeholders` on the character-list level:
append `<stop>` after every `.`, `?`, `!`, then restore `<prd>` to `.`. -/
def replacePlaceholdersCore (l : Str) : Str :=
  let l := replaceAll ['.'] ('.' :: stopTok) l
  let l := replaceAll ['?'] ('?' :: stopTok) l
  let l := replaceAll ['!'] ('!' :: stopTok) l
  replaceAll prdTok ['.'] l

/-- `TextSplitter.replace_placeholders`. -/
def replace_placeholders (s : String) : String := String.mk (replacePlaceholdersCore s.data)

/-- `TextSplitter.create_sentences` on the character-list level: split on
`<stop>`, strip each fragment, drop empty fragments. -/
def createSentencesCore (l : Str) : List Str :=
  (((splitOn stopTok l).map strip).filter fun s => !(s.length == 0))

/-- `TextSplitter.create_sentences`. -/
def create_sentences (s : String) : List String := (createSentencesCore s.data).map String.mk

/-- `TextSplitter.split_into_sentences` on the character-list level: pad with
one leading and two trailing spaces, collapse newlines to spaces, then the
pipeline `process_substitutions` → `process_special_chars` →
`replace_placeholders` → `create_sentences` (note: `process_special_cases`
is never called). -/
def splitCore (l : Str) : List Str :=
  let t := [' '] ++ l ++ [' ', ' ']
  let t := replaceAll ['\n'] [' '] t
  let t := substitutionsCore t
  let t := specialCharsCore t
  let t := replacePlaceholdersCore t
  createSentencesCore t

/-- `TextSplitter.split_into_sentences`. -/
def split_into_sentences (s : String) : List String := (splitCore s.data).map String.mk

end TextSplitter

/-- The decorator `timer` of `timer.py`, with the wall clock modelled as an
explicit function from sampling instants to readings: the wrapper samples the
clock, computes `f a`, samples again, renders the report line, and returns
the computed result together with the report. -/
def timer {α β : Type} (fname : String) (clock : Nat → Nat) (f : α → β) (a : α) :
    β × String :=
  let start := clock 0
  let result := f a
  let stop := clock 1
  (result, "Time taken by " ++ fname ++ ": " ++ toString (stop - start) ++ " seconds")

namespace TextSplitter

/-! ### Bridging the boolean scanners with their Prop descriptions -/

theorem isPrefixOf_iff : ∀ (p l : Str), p.isPrefixOf l = true ↔ IsStart p l
  | [], l => by
    constructor
    · intro _; exact ⟨l, rfl⟩
    · intro _; cases l <;> rfl
  | a :: as, [] => by
    constructor
    · intro h
      have hfalse : (a :: as : Str).isPrefixOf [] = false := rfl
      rw [hfalse] at h
      exact Bool.noConfusion h
    · rintro ⟨t, ht⟩; exact absurd ht (List.cons_ne_nil a (as ++ t))
  | a :: as, b :: bs => by
    constructor
    · intro h
      simp only [List.isPrefixOf, Bool.and_eq_true, beq_iff_eq] at h
      obtain ⟨rfl, h2⟩ := h
      obtain ⟨t, rfl⟩ := (isPrefixOf_iff as bs).1 h2
      exact ⟨t, rfl⟩
    · rintro ⟨t, ht⟩
      injection ht with h1 h2
      subst h1
      show (a == a && as.isPrefixOf bs) = true
      rw [beq_self_eq_true, Bool.true_and]
      exact (isPrefixOf_iff as bs).2 ⟨t, h2⟩

theorem isStart_within {p l : Str} (h : IsStart p l) : Within p l := by
  obtain ⟨t, rfl⟩ := h; exact ⟨[], t, rfl⟩

theorem isStart_trans {x y z : Str} (h1 : IsStart x y) (h2 : IsStart y z) : IsStart x z := by
  obtain ⟨t, rfl⟩ := h1; obtain ⟨u, rfl⟩ := h2; exact ⟨t ++ u, by simp⟩

theorem isStart_cons {p cs : Str} (c : Char) (h : IsStart p cs) : IsStart (c :: p) (c :: cs) := by
  obtain ⟨t, rfl⟩ := h; exact ⟨t, rfl⟩

theorem within_cons {p cs : Str} (c : Char) (h : Within p cs) : Within p (c :: cs) := by
  obtain ⟨a, b, rfl⟩ := h; exact ⟨c :: a, b, rfl⟩

theorem within_append_right {p y : Str} (x : Str) (h : Within p y) : Within p (x ++ y) := by
  obtain ⟨a, b, rfl⟩ := h; exact ⟨x ++ a, b, by simp⟩

theorem within_append_left {p x : Str} (y : Str) (h : Within p x) : Within p (x ++ y) := by
  obtain ⟨a, b, rfl⟩ := h; exact ⟨a, b ++ y, by simp⟩

theorem within_trans {p q l : Str} (h1 : Within p q) (h2 : Within q l) : Within p l := by
  obtain ⟨a, b, rfl⟩ := h1; obtain ⟨x, y, rfl⟩ := h2
  exact ⟨x ++ a, b ++ y, by simp⟩

theorem mem_of_within {p l : Str} (h : Within p l) {x : Char} (hx : x ∈ p) : x ∈ l := by
  obtain ⟨a, b, rfl⟩ := h; simp [hx]

theorem within_nil_elim {p : Str} (h : Within p []) : p = [] := by
  obtain ⟨a, b, hab⟩ := h
  rcases List.append_eq_nil.mp hab.symm with ⟨h1, _⟩
  exact (List.append_eq_nil.mp h1).2

theorem containsSub_iff (p : Str) : ∀ l : Str, containsSub p l = true ↔ Within p l
  | [] => by
    simp only [containsSub]
    rw [isPrefixOf_iff]
    constructor
    · exact isStart_within
    · intro h; rw [within_nil_elim h]; exact ⟨[], rfl⟩
  | c :: cs => by
    simp only [containsSub, Bool.or_eq_true]
    rw [isPrefixOf_iff, containsSub_iff p cs]
    constructor
    · rintro (h | h)
      · exact isStart_within h
      · exact within_cons c h
    · rintro ⟨a, b, hab⟩
      cases a with
      | nil => exact Or.inl ⟨b, hab.symm⟩
      | cons a0 a1 =>
        injection hab with h1 h2
        exact Or.inr ⟨a1, b, h2⟩

theorem containsSub_false_iff {p l : Str} : containsSub p l = false ↔ ¬ Within p l := by
  rw [← containsSub_iff]
  constructor
  · intro h hc; rw [h] at hc; cases hc
  · intro h; cases hcs : containsSub p l
    · rfl
    · exact absurd hcs h

/-! ### Fuel irrelevance and step equations for the bounded scanners -/

theorem replaceAllF_congr (p r : Str) :
    ∀ n m l, l.length ≤ n → l.length ≤ m → replaceAllF p r n l = replaceAllF p r m l := by
  intro n
  induction n with
  | zero =>
    intro m l hn _
    rw [List.length_eq_zero.mp (Nat.le_zero.mp hn)]
    cases m <;> rfl
  | succ n ih =>
    intro m l hn hm
    cases l with
    | nil => cases m <;> rfl
    | cons c cs =>
      cases m with
      | zero => simp at hm
      | succ m =>
        simp only [List.length_cons, Nat.succ_le_succ_iff] at hn hm
        simp only [replaceAllF]
        by_cases hp : p.isPrefixOf (c :: cs) = true
        · rw [if_pos hp, if_pos hp]
          have hd : (cs.drop (p.length - 1)).length ≤ n := by
            rw [List.length_drop]; omega
          have hd2 : (cs.drop (p.length - 1)).length ≤ m := by
            rw [List.length_drop]; omega
          rw [ih m _ hd hd2]
        · rw [if_neg hp, if_neg hp, ih m cs hn hm]

theorem replaceAll_nil (p r : Str) : replaceAll p r [] = [] := rfl

theorem replaceAll_cons (p r : Str) (c : Char) (cs : Str) :
    replaceAll p r (c :: cs) =
      if p.isPrefixOf (c :: cs) then r ++ replaceAll p r (cs.drop (p.length - 1))
      else c :: replaceAll p r cs := by
  show replaceAllF p r (cs.length + 1) (c :: cs) = _
  simp only [replaceAllF]
  by_cases hp : p.isPrefixOf (c :: cs) = true
  · rw [if_pos hp, if_pos hp]
    have : replaceAllF p r cs.length (cs.drop (p.length - 1)) =
        replaceAll p r (cs.drop (p.length - 1)) :=
      replaceAllF_congr p r cs.length (cs.drop (p.length - 1)).length _
        (by rw [List.length_drop]; omega) le_rfl
    rw [this]
  · rw [if_neg hp, if_neg hp]; rfl

theorem splitOnF_congr (sep : Str) :
    ∀ n m l, l.length ≤ n → l.length ≤ m → splitOnF sep n l = splitOnF sep m l := by
  intro n
  induction n with
  | zero =>
    intro m l hn _
    rw [List.length_eq_zero.mp (Nat.le_zero.mp hn)]
    cases m <;> rfl
  | succ n ih =>
    intro m l hn hm
    cases l with
    | nil => cases m <;> rfl
    | cons c cs =>
      cases m with
      | zero => simp at hm
      | succ m =>
        simp only [List.length_cons, Nat.succ_le_succ_iff] at hn hm
        simp only [splitOnF]
        by_cases hp : sep.isPrefixOf (c :: cs) = true
        · rw [if_pos hp, if_pos hp]
          have hd : (cs.drop (sep.length - 1)).length ≤ n := by
            rw [List.length_drop]; omega
          have hd2 : (cs.drop (sep.length - 1)).length ≤ m := by
            rw [List.length_drop]; omega
          rw [ih m _ hd hd2]
        · rw [if_neg hp, if_neg hp, ih m cs hn hm]

theorem splitOn_nil (sep : Str) : splitOn sep [] = [[]] := rfl

theorem splitOn_cons (sep : Str) (c : Char) (cs : Str) :
    splitOn sep (c :: cs) =
      if sep.isPrefixOf (c :: cs) then [] :: splitOn sep (cs.drop (sep.length - 1))
      else
        match splitOn sep cs with
        | [] => [[c]]
        | f :: rest => (c :: f) :: rest := by
  show splitOnF sep (cs.length + 1) (c :: cs) = _
  simp only [splitOnF]
  by_cases hp : sep.isPrefixOf (c :: cs) = true
  · rw [if_pos hp, if_pos hp]
    have : splitOnF sep cs.length (cs.drop (sep.length - 1)) =
        splitOn sep (cs.drop (sep.length - 1)) :=
      splitOnF_congr sep cs.length (cs.drop (sep.length - 1)).length _
        (by rw [List.length_drop]; omega) le_rfl
    rw [this]
  · rw [if_neg hp, if_neg hp]; rfl

theorem substF_congr (tm : Str → Option (Str × Nat)) :
    ∀ n m l, l.length ≤ n → l.length ≤ m → substF tm n l = substF tm m l := by
  intro n
  induction n with
  | zero =>
    intro m l hn _
    rw [List.length_eq_zero.mp (Nat.le_zero.mp hn)]
    cases m <;> rfl
  | succ n ih =>
    intro m l hn hm
    cases l with
    | nil => cases m <;> rfl
    | cons c cs =>
      cases m with
      | zero => simp at hm
      | succ m =>
        simp only [List.length_cons, Nat.succ_le_succ_iff] at hn hm
        simp only [substF]
        cases htm : tm (c :: cs) with
        | none => rw [ih m cs hn hm]
        | some pk =>
          obtain ⟨repl, k⟩ := pk
          show repl ++ substF tm n (cs.drop k) = repl ++ substF tm m (cs.drop k)
          have hd : (cs.drop k).length ≤ n := by rw [List.length_drop]; omega
          have hd2 : (cs.drop k).length ≤ m := by rw [List.length_drop]; omega
          rw [ih m _ hd hd2]

theorem subst_nil (tm : Str → Option (Str × Nat)) : subst tm [] = [] := rfl

theorem subst_cons (tm : Str → Option (Str × Nat)) (c : Char) (cs : Str) :
    subst tm (c :: cs) =
      match tm (c :: cs) with
      | some (repl, k) => repl ++ subst tm (cs.drop k)
      | none => c :: subst tm cs := by
  show substF tm (cs.length + 1) (c :: cs) = _
  simp only [substF]
  cases htm : tm (c :: cs) with
  | none => rfl
  | some pk =>
    obtain ⟨repl, k⟩ := pk
    show repl ++ substF tm cs.length (cs.drop k) = repl ++ subst tm (cs.drop k)
    have : substF tm cs.length (cs.drop k) = subst tm (cs.drop k) :=
      substF_congr tm cs.length (cs.drop k).length _
        (by rw [List.length_drop]; omega) le_rfl
    rw [this]

/-! ### Semantic lemmas about `replaceAll` -/

theorem isStart_nil_elim {p : Str} (h : IsStart p []) : p = [] := by
  obtain ⟨t, ht⟩ := h; exact (List.append_eq_nil.mp ht).1

theorem replaceAll_id (p r : Str) : ∀ l, containsSub p l = false → replaceAll p r l = l
  | [] => fun _ => rfl
  | c :: cs => fun h => by
    have hsplit : p.isPrefixOf (c :: cs) = false ∧ containsSub p cs = false := by
      have : (p.isPrefixOf (c :: cs) || containsSub p cs) = false := h
      exact ⟨by cases hb : p.isPrefixOf (c :: cs) <;> simp [hb] at this ⊢,
             by cases hb : containsSub p cs <;> simp [hb] at this ⊢⟩
    rw [replaceAll_cons, if_neg (by simp [hsplit.1]), replaceAll_id p r cs hsplit.2]

theorem containsSub_false_of_head {hd : Char} {pt : Str} :
    ∀ l : Str, (∀ x ∈ l, x ≠ hd) → containsSub (hd :: pt) l = false
  | [] => fun _ => rfl
  | c :: cs => fun h => by
    have h1 : (hd :: pt).isPrefixOf (c :: cs) = false := by
      show (hd == c && pt.isPrefixOf cs) = false
      have : (hd == c) = false := by
        cases hb : hd == c
        · rfl
        · exact absurd (eq_of_beq hb).symm (h c (List.mem_cons_self c cs))
      rw [this, Bool.false_and]
    show ((hd :: pt).isPrefixOf (c :: cs) || containsSub (hd :: pt) cs) = false
    rw [h1, containsSub_false_of_head cs (fun x hx => h x (List.mem_cons_of_mem c hx)),
      Bool.or_self]

theorem replaceAll_id_of_head_ne {hd : Char} {pt : Str} (r : Str) (l : Str)
    (h : ∀ x ∈ l, x ≠ hd) : replaceAll (hd :: pt) r l = l :=
  replaceAll_id _ r l (containsSub_false_of_head l h)

theorem replaceAll_pred (p r : Str) (P : Char → Prop) (hr : ∀ x ∈ r, P x) :
    ∀ l, (∀ x ∈ l, P x) → ∀ x ∈ replaceAll p r l, P x
  | [] => by intro _ x hx; rw [replaceAll_nil] at hx; cases hx
  | c :: cs => by
    intro hl x hx
    rw [replaceAll_cons] at hx
    by_cases hp : p.isPrefixOf (c :: cs) = true
    · rw [if_pos hp] at hx
      rcases List.mem_append.mp hx with h | h
      · exact hr x h
      · exact replaceAll_pred p r P hr (cs.drop (p.length - 1))
          (fun y hy => hl y (List.mem_cons_of_mem c (List.mem_of_mem_drop hy))) x h
    · rw [if_neg hp] at hx
      rcases List.mem_cons.mp hx with h | h
      · rw [h]; exact hl c (List.mem_cons_self c cs)
      · exact replaceAll_pred p r P hr cs
          (fun y hy => hl y (List.mem_cons_of_mem c hy)) x h
termination_by l => l.length
decreasing_by
  · rw [List.length_drop]; simp only [List.length_cons]; omega
  · simp only [List.length_cons]; omega

theorem replaceAll_single_ne (c d : Char) (hcd : d ≠ c) :
    ∀ l, ∀ x ∈ replaceAll [c] [d] l, x ≠ c
  | [] => by intro x hx; rw [replaceAll_nil] at hx; cases hx
  | e :: cs => by
    intro x hx
    rw [replaceAll_cons] at hx
    by_cases hp : ([c] : Str).isPrefixOf (e :: cs) = true
    · rw [if_pos hp] at hx
      rcases List.mem_append.mp hx with h | h
      · rcases List.mem_singleton.mp h with rfl
        exact hcd
      · exact replaceAll_single_ne c d hcd (cs.drop 0) x h
    · rw [if_neg hp] at hx
      rcases List.mem_cons.mp hx with h | h
      · rw [h]
        intro he
        apply hp
        show (c == e && List.isPrefixOf [] cs) = true
        rw [he, beq_self_eq_true, Bool.true_and]
        cases cs <;> rfl
      · exact replaceAll_single_ne c d hcd cs x h
termination_by l => l.length
decreasing_by
  · rw [List.length_drop]; simp only [List.length_cons]; omega
  · simp only [List.length_cons]; omega

theorem replaceAll_append_single (c : Char) (r : Str) :
    ∀ b : Str, c ∉ b → replaceAll [c] r (b ++ [c]) = b ++ r
  | [] => by
    intro _
    show replaceAll [c] r [c] = r
    rw [replaceAll_cons]
    rw [if_pos (by show (c == c && List.isPrefixOf [] ([] : Str)) = true; simp)]
    simp [replaceAll_nil]
  | e :: bs => by
    intro hc
    have hec : c ≠ e := fun h => hc (by rw [h]; exact List.mem_cons_self e bs)
    show replaceAll [c] r (e :: (bs ++ [c])) = e :: (bs ++ r)
    rw [replaceAll_cons]
    rw [if_neg (by
      show ¬ ((c == e && List.isPrefixOf [] (bs ++ [c])) = true)
      have : (c == e) = false := by
        cases hb : c == e
        · rfl
        · exact absurd (eq_of_beq hb) hec
      rw [this, Bool.false_and]
      exact fun hh => Bool.noConfusion hh)]
    rw [replaceAll_append_single c r bs (fun h => hc (List.mem_cons_of_mem e h))]

theorem replaceAll_start_pull (p r : Str) (hr0 : r ≠ []) (hdisj : ∀ x ∈ r, x ∉ p) :
    ∀ l q, q ≠ [] → (∀ x ∈ q, x ∈ p) → IsStart q (replaceAll p r l) → IsStart q l
  | [], q => by
    intro hq _ hs
    rw [replaceAll_nil] at hs
    exact absurd (isStart_nil_elim hs) hq
  | c :: cs, q => by
    intro hq hqp hs
    rw [replaceAll_cons] at hs
    by_cases hp : p.isPrefixOf (c :: cs) = true
    · rw [if_pos hp] at hs
      obtain ⟨r0, r1, rfl⟩ : ∃ r0 r1, r = r0 :: r1 := by
        cases r with
        | nil => exact absurd rfl hr0
        | cons r0 r1 => exact ⟨r0, r1, rfl⟩
      obtain ⟨q0, q1, rfl⟩ : ∃ q0 q1, q = q0 :: q1 := by
        cases q with
        | nil => exact absurd rfl hq
        | cons q0 q1 => exact ⟨q0, q1, rfl⟩
      obtain ⟨t, ht⟩ := hs
      injection ht with h1 _
      subst h1
      exact absurd (hqp q0 (List.mem_cons_self q0 q1))
        (hdisj q0 (List.mem_cons_self q0 r1))
    · rw [if_neg hp] at hs
      obtain ⟨q0, q1, rfl⟩ : ∃ q0 q1, q = q0 :: q1 := by
        cases q with
        | nil => exact absurd rfl hq
        | cons q0 q1 => exact ⟨q0, q1, rfl⟩
      obtain ⟨t, ht⟩ := hs
      injection ht with h1 h2
      subst h1
      cases q1 with
      | nil => exact ⟨cs, rfl⟩
      | cons z zs =>
        have hq1 : IsStart (z :: zs) cs :=
          replaceAll_start_pull p r hr0 hdisj cs (z :: zs)
            (List.cons_ne_nil z zs)
            (fun x hx => hqp x (List.mem_cons_of_mem q0 hx)) ⟨t, h2⟩
        exact isStart_cons q0 hq1
termination_by l _ => l.length
decreasing_by
  simp only [List.length_cons]; omega

theorem replaceAll_no_within (p r : Str) (hp0 : p ≠ []) (hr0 : r ≠ [])
    (hdisj : ∀ x ∈ r, x ∉ p) : ∀ l, ¬ Within p (replaceAll p r l)
  | [] => by
    rw [replaceAll_nil]
    intro h
    exact hp0 (within_nil_elim h)
  | c :: cs => by
    intro hw
    rw [replaceAll_cons] at hw
    by_cases hpp : p.isPrefixOf (c :: cs) = true
    · rw [if_pos hpp] at hw
      obtain ⟨a, b, hab⟩ := hw
      rw [List.append_assoc] at hab
      rcases List.append_eq_append_iff.mp hab.symm with ⟨k, hk1, hk2⟩ | ⟨k, hk1, hk2⟩
      · cases k with
        | nil =>
          have hk3 : p ++ b = replaceAll p r (cs.drop (p.length - 1)) := by
            simpa using hk2
          have : Within p (replaceAll p r (cs.drop (p.length - 1))) := by
            refine ⟨[], b, ?_⟩
            simpa using hk3.symm
          exact replaceAll_no_within p r hp0 hr0 hdisj (cs.drop (p.length - 1)) this
        | cons k0 k1 =>
          obtain ⟨p0, p1, rfl⟩ : ∃ p0 p1, p = p0 :: p1 := by
            cases p with
            | nil => exact absurd rfl hp0
            | cons p0 p1 => exact ⟨p0, p1, rfl⟩
          injection hk2 with h1 _
          rw [← h1] at hk1
          exact hdisj p0
            (by rw [hk1]; exact List.mem_append_right a (List.mem_cons_self p0 k1))
            (List.mem_cons_self p0 p1)
      · have : Within p (replaceAll p r (cs.drop (p.length - 1))) := by
          refine ⟨k, b, ?_⟩
          rw [hk2]; simp
        exact replaceAll_no_within p r hp0 hr0 hdisj (cs.drop (p.length - 1)) this
    · rw [if_neg hpp] at hw
      obtain ⟨a, b, hab⟩ := hw
      cases a with
      | nil =>
        obtain ⟨p0, p1, rfl⟩ : ∃ p0 p1, p = p0 :: p1 := by
          cases p with
          | nil => exact absurd rfl hp0
          | cons p0 p1 => exact ⟨p0, p1, rfl⟩
        have hab2 : c :: replaceAll (p0 :: p1) r cs = p0 :: (p1 ++ b) := by
          rw [hab]; rfl
        injection hab2 with h1 h2
        subst h1
        cases p1 with
        | nil =>
          apply hpp
          show (c == c && List.isPrefixOf [] cs) = true
          rw [beq_self_eq_true, Bool.true_and]
          cases cs <;> rfl
        | cons z zs =>
          have hzs : IsStart (z :: zs) cs :=
            replaceAll_start_pull (c :: z :: zs) r hr0 hdisj cs (z :: zs)
              (List.cons_ne_nil z zs)
              (fun x hx => List.mem_cons_of_mem c hx) ⟨b, h2.symm⟩
          apply hpp
          rw [isPrefixOf_iff]
          exact isStart_cons c hzs
      | cons a0 a1 =>
        have hab2 : c :: replaceAll p r cs = a0 :: (a1 ++ p ++ b) := by
          rw [hab]; simp
        injection hab2 with h1 h2
        exact replaceAll_no_within p r hp0 hr0 hdisj cs ⟨a1, b, h2⟩
termination_by l => l.length
decreasing_by
  · rw [List.length_drop]; simp only [List.length_cons]; omega
  · rw [List.length_drop]; simp only [List.length_cons]; omega
  · simp only [List.length_cons]; omega

/-! ### Semantic lemmas about `splitOn`, `strip` and `subst` -/

theorem splitOn_spec (sep : Str) (hsep : sep ≠ []) :
    ∀ l : Str,
      splitOn sep l ≠ [] ∧
      (∀ f0 rest, splitOn sep l = f0 :: rest → IsStart f0 l) ∧
      (∀ f ∈ splitOn sep l, Within f l ∧ ¬ Within sep f)
  | [] => by
    rw [splitOn_nil]
    refine ⟨by simp, ?_, ?_⟩
    · intro f0 rest h
      injection h with h1 _
      rw [← h1]
      exact ⟨[], rfl⟩
    · intro f hf
      rcases List.mem_singleton.mp hf with rfl
      exact ⟨⟨[], [], rfl⟩, fun hw => hsep (within_nil_elim hw)⟩
  | c :: cs => by
    rw [splitOn_cons]
    by_cases hp : sep.isPrefixOf (c :: cs) = true
    · rw [if_pos hp]
      have ihd := splitOn_spec sep hsep (cs.drop (sep.length - 1))
      refine ⟨by simp, ?_, ?_⟩
      · intro f0 rest h
        injection h with h1 _
        rw [← h1]
        exact ⟨c :: cs, rfl⟩
      · intro f hf
        rcases List.mem_cons.mp hf with rfl | hf2
        · exact ⟨⟨[], c :: cs, rfl⟩, fun hw => hsep (within_nil_elim hw)⟩
        · obtain ⟨hw, hnw⟩ := ihd.2.2 f hf2
          refine ⟨?_, hnw⟩
          have h2 := within_append_right (cs.take (sep.length - 1)) hw
          rw [List.take_append_drop] at h2
          exact within_cons c h2
    · rw [if_neg hp]
      obtain ⟨hne, hhead, hmem⟩ := splitOn_spec sep hsep cs
      obtain ⟨f0, rest, hfr⟩ : ∃ f0 rest, splitOn sep cs = f0 :: rest := by
        cases hsp : splitOn sep cs with
        | nil => exact absurd hsp hne
        | cons f0 rest => exact ⟨f0, rest, rfl⟩
      rw [hfr]
      show ((c :: f0) :: rest ≠ []) ∧
        (∀ g0 grest, (c :: f0) :: rest = g0 :: grest → IsStart g0 (c :: cs)) ∧
        (∀ f ∈ (c :: f0) :: rest, Within f (c :: cs) ∧ ¬ Within sep f)
      refine ⟨by simp, ?_, ?_⟩
      · intro g0 grest h
        injection h with h1 _
        rw [← h1]
        exact isStart_cons c (hhead f0 rest hfr)
      · intro f hf
        rcases List.mem_cons.mp hf with rfl | hf2
        · refine ⟨isStart_within (isStart_cons c (hhead f0 rest hfr)), ?_⟩
          rintro ⟨a, b, hab⟩
          cases a with
          | nil =>
            obtain ⟨s0, s1, rfl⟩ : ∃ s0 s1, sep = s0 :: s1 := by
              cases sep with
              | nil => exact absurd rfl hsep
              | cons s0 s1 => exact ⟨s0, s1, rfl⟩
            have hab2 : c :: f0 = s0 :: (s1 ++ b) := by rw [hab]; rfl
            injection hab2 with h1 h2
            apply hp
            rw [isPrefixOf_iff, h1]
            exact isStart_cons s0 (isStart_trans ⟨b, h2.symm⟩ (hhead f0 rest hfr))
          | cons a0 a1 =>
            have hab2 : c :: f0 = a0 :: (a1 ++ sep ++ b) := by rw [hab]; simp
            injection hab2 with _ h2
            exact (hmem f0 (by rw [hfr]; exact List.mem_cons_self f0 rest)).2 ⟨a1, b, h2⟩
        · obtain ⟨hw, hnw⟩ := hmem f (by rw [hfr]; exact List.mem_cons_of_mem f0 hf2)
          exact ⟨within_cons c hw, hnw⟩
termination_by l => l.length
decreasing_by
  · rw [List.length_drop]; simp only [List.length_cons]; omega
  · simp only [List.length_cons]; omega

theorem splitOn_not_contains (sep : Str) :
    ∀ l, containsSub sep l = false → splitOn sep l = [l]
  | [] => fun _ => rfl
  | c :: cs => fun h => by
    have hsplit : sep.isPrefixOf (c :: cs) = false ∧ containsSub sep cs = false := by
      have h2 : (sep.isPrefixOf (c :: cs) || containsSub sep cs) = false := h
      exact ⟨by cases hb : sep.isPrefixOf (c :: cs) <;> simp [hb] at h2 ⊢,
             by cases hb : containsSub sep cs <;> simp [hb] at h2 ⊢⟩
    rw [splitOn_cons, if_neg (by simp [hsplit.1]), splitOn_not_contains sep cs hsplit.2]

theorem dropWhile_head_false {q : Char → Bool} :
    ∀ (l : Str) (c : Char) (cs : Str), l.dropWhile q = c :: cs → q c = false
  | [], c, cs => by intro h; exact absurd h (by simp)
  | e :: es, c, cs => by
    intro h
    by_cases hq : q e = true
    · rw [List.dropWhile_cons, if_pos hq] at h
      exact dropWhile_head_false es c cs h
    · rw [List.dropWhile_cons, if_neg hq] at h
      injection h with h1 _
      rw [← h1]
      cases hb : q e
      · rfl
      · exact absurd hb hq

theorem dropWhile_id_of_head {q : Char → Bool} {c : Char} {cs : Str} (h : q c = false) :
    List.dropWhile q (c :: cs) = c :: cs := by
  rw [List.dropWhile_cons, if_neg (by simp [h])]

theorem dropTrail_isStart (l : Str) : IsStart (dropTrail l) l := by
  obtain ⟨t, ht⟩ := (List.dropWhile_suffix isPyWs (l := l.reverse))
  refine ⟨t.reverse, ?_⟩
  show (l.reverse.dropWhile isPyWs).reverse ++ t.reverse = l
  rw [← List.reverse_append, ← List.reverse_reverse l]
  congr 1
  rw [List.reverse_reverse]
  exact ht

theorem dropWhile_dropWhile (q : Char → Bool) (l : Str) :
    List.dropWhile q (List.dropWhile q l) = List.dropWhile q l := by
  cases h : List.dropWhile q l with
  | nil => rfl
  | cons c cs => exact dropWhile_id_of_head (dropWhile_head_false l c cs h)

theorem dropTrail_idem (l : Str) : dropTrail (dropTrail l) = dropTrail l := by
  show ((l.reverse.dropWhile isPyWs).reverse.reverse.dropWhile isPyWs).reverse = _
  rw [List.reverse_reverse, dropWhile_dropWhile]
  rfl

theorem strip_idem (l : Str) : strip (strip l) = strip l := by
  show dropTrail (List.dropWhile isPyWs (dropTrail (List.dropWhile isPyWs l))) = _
  have h1 : List.dropWhile isPyWs (dropTrail (List.dropWhile isPyWs l)) =
      dropTrail (List.dropWhile isPyWs l) := by
    cases hx : dropTrail (List.dropWhile isPyWs l) with
    | nil => rfl
    | cons c cs =>
      obtain ⟨t, ht⟩ := dropTrail_isStart (List.dropWhile isPyWs l)
      rw [hx] at ht
      have ht2 : List.dropWhile isPyWs l = c :: (cs ++ t) := by rw [← ht]; rfl
      exact dropWhile_id_of_head (dropWhile_head_false l c (cs ++ t) ht2)
  rw [h1, dropTrail_idem]
  rfl

theorem strip_within (l : Str) : Within (strip l) l := by
  have h1 : Within (strip l) (List.dropWhile isPyWs l) :=
    isStart_within (dropTrail_isStart (List.dropWhile isPyWs l))
  obtain ⟨t, ht⟩ := (List.dropWhile_suffix isPyWs (l := l))
  exact within_trans h1 ⟨t, [], by rw [List.append_nil]; exact ht.symm⟩

theorem strip_all_ws (l : Str) (h : ∀ x ∈ l, isPyWs x = true) : strip l = [] := by
  show dropTrail (List.dropWhile isPyWs l) = []
  rw [List.dropWhile_eq_nil_iff.mpr h]
  rfl

theorem subst_pred (tm : Str → Option (Str × Nat)) (P : Char → Prop)
    (htm : ∀ l repl k, tm l = some (repl, k) → (∀ x ∈ l, P x) → ∀ x ∈ repl, P x) :
    ∀ l, (∀ x ∈ l, P x) → ∀ x ∈ subst tm l, P x
  | [] => by intro _ x hx; rw [subst_nil] at hx; cases hx
  | c :: cs => by
    intro hl x hx
    cases hmt : tm (c :: cs) with
    | none =>
      rw [subst_cons, hmt] at hx
      have hx2 : x ∈ c :: subst tm cs := hx
      rcases List.mem_cons.mp hx2 with h | h
      · rw [h]; exact hl c (List.mem_cons_self c cs)
      · exact subst_pred tm P htm cs (fun y hy => hl y (List.mem_cons_of_mem c hy)) x h
    | some pk =>
      obtain ⟨repl, k⟩ := pk
      rw [subst_cons, hmt] at hx
      have hx2 : x ∈ repl ++ subst tm (cs.drop k) := hx
      rcases List.mem_append.mp hx2 with h | h
      · exact htm (c :: cs) repl k hmt hl x h
      · exact subst_pred tm P htm (cs.drop k)
          (fun y hy => hl y (List.mem_cons_of_mem c (List.mem_of_mem_drop hy))) x h
termination_by l => l.length
decreasing_by
  · simp only [List.length_cons]; omega
  · rw [List.length_drop]; simp only [List.length_cons]; omega

theorem subst_id (tm : Str → Option (Str × Nat)) (Q : Char → Bool)
    (htm : ∀ l2 : Str, (∀ x ∈ l2, Q x = true) → tm l2 = none) :
    ∀ l, (∀ x ∈ l, Q x = true) → subst tm l = l
  | [] => fun _ => rfl
  | c :: cs => fun h => by
    rw [subst_cons, htm (c :: cs) h]
    show c :: subst tm cs = c :: cs
    rw [subst_id tm Q htm cs (fun x hx => h x (List.mem_cons_of_mem c hx))]

/-! ### Character-class facts and targeted computation lemmas -/

theorem eq_of_beq_true {a b : Char} (h : (a == b) = true) : a = b := eq_of_beq h

theorem beq_false_of_ne {a b : Char} (h : a ≠ b) : (a == b) = false := by
  cases hb : a == b
  · rfl
  · exact absurd (eq_of_beq hb) h

theorem digit_ne_lt {a : Char} (h : isDigitCh a = true) : a ≠ '<' := by
  intro he; rw [he] at h; exact absurd h (by decide)

theorem alpha_ne_lt {a : Char} (h : isAlphaCh a = true) : a ≠ '<' := by
  intro he; rw [he] at h; exact absurd h (by decide)

theorem upper_ne_lt {a : Char} (h : isUpperCh a = true) : a ≠ '<' := by
  intro he; rw [he] at h; exact absurd h (by decide)

theorem ws_ne_lt {a : Char} (h : isPyWs a = true) : a ≠ '<' := by
  intro he; rw [he] at h; exact absurd h (by decide)

theorem ws_ne_dot {a : Char} (h : isPyWs a = true) : a ≠ '.' := by
  intro he; rw [he] at h; exact absurd h (by decide)

theorem take_append_of_length {x : Str} (t : Str) {n : Nat} (h : x.length = n) :
    (x ++ t).take n = x := by
  rw [← h]; exact List.take_left x t

theorem replaceAll_skip (p r : Str) (c : Char) (cs : Str)
    (h : p.isPrefixOf (c :: cs) = false) :
    replaceAll p r (c :: cs) = c :: replaceAll p r cs := by
  rw [replaceAll_cons, if_neg (by simp [h])]

theorem replaceAll_hit (p r : Str) (c : Char) (cs : Str)
    (h : p.isPrefixOf (c :: cs) = true) :
    replaceAll p r (c :: cs) = r ++ replaceAll p r (cs.drop (p.length - 1)) := by
  rw [replaceAll_cons, if_pos h]

/-- Scanning skips over a leading segment none of whose characters equals the
pattern's first character. -/
theorem replaceAll_append_head_ne {hd : Char} {pt : Str} (r : Str) :
    ∀ (x l : Str), (∀ y ∈ x, y ≠ hd) →
      replaceAll (hd :: pt) r (x ++ l) = x ++ replaceAll (hd :: pt) r l
  | [], l => fun _ => by simp
  | c :: xs, l => fun h => by
    have hch : (hd :: pt).isPrefixOf (c :: (xs ++ l)) = false := by
      show (hd == c && pt.isPrefixOf (xs ++ l)) = false
      rw [beq_false_of_ne (fun he => h c (List.mem_cons_self c xs) he.symm), Bool.false_and]
    show replaceAll (hd :: pt) r (c :: (xs ++ l)) = c :: (xs ++ replaceAll (hd :: pt) r l)
    rw [replaceAll_skip _ _ _ _ hch,
      replaceAll_append_head_ne r xs l (fun y hy => h y (List.mem_cons_of_mem c hy))]

/-- Scanning a buffer that begins with the pattern itself replaces that
occurrence and continues after it. -/
theorem replaceAll_hit_token (p0 : Char) (pt : Str) (r l : Str) :
    replaceAll (p0 :: pt) r ((p0 :: pt) ++ l) = r ++ replaceAll (p0 :: pt) r l := by
  have h1 : (p0 :: pt).isPrefixOf (p0 :: (pt ++ l)) = true :=
    (isPrefixOf_iff _ _).2 ⟨l, by simp⟩
  show replaceAll (p0 :: pt) r (p0 :: (pt ++ l)) = r ++ replaceAll (p0 :: pt) r l
  rw [replaceAll_hit (p0 :: pt) r p0 (pt ++ l) h1]
  congr 2
  show List.drop ((p0 :: pt).length - 1) (pt ++ l) = l
  have : (p0 :: pt).length - 1 = pt.length := by simp
  rw [this, List.drop_left]

theorem orTry_elim {α : Type} {a b : Option α} {x : α} (h : orTry a b = some x) :
    a = some x ∨ (a = none ∧ b = some x) := by
  cases ha : a with
  | some y =>
    left
    rw [ha] at h
    exact h
  | none =>
    right
    rw [ha] at h
    exact ⟨rfl, h⟩

/-! ### Characterization of the `starters` matcher -/

theorem starterPlain_elim {w l st : Str} (h : starterPlain w l = some st) :
    st = w ∧ IsStart w l := by
  unfold starterPlain at h
  by_cases hw : w.isPrefixOf l = true
  · rw [if_pos hw] at h
    injection h with h1
    exact ⟨h1.symm, (isPrefixOf_iff w l).1 hw⟩
  · rw [if_neg hw] at h
    exact Option.noConfusion h

theorem starterWord_elim {w l st : Str} (h : starterWord w l = some st) :
    ∃ c t2, st = w ++ [c] ∧ isPyWs c = true ∧ l = w ++ c :: t2 := by
  unfold starterWord at h
  by_cases hw : w.isPrefixOf l = true
  · rw [if_pos hw] at h
    obtain ⟨t, rfl⟩ := (isPrefixOf_iff w l).1 hw
    rw [List.drop_left] at h
    cases t with
    | nil => exact Option.noConfusion h
    | cons c t2 =>
      have h2 : (if isPyWs c = true then some (w ++ [c]) else none) = some st := h
      by_cases hc : isPyWs c = true
      · rw [if_pos hc] at h2
        injection h2 with h1
        exact ⟨c, t2, h1.symm, hc, rfl⟩
      · rw [if_neg hc] at h2
        exact Option.noConfusion h2
  · rw [if_neg hw] at h
    exact Option.noConfusion h

theorem starterPlain_good {w l st : Str} (hw : w ≠ [] ∧ ∀ x ∈ w, x ≠ '<')
    (h : starterPlain w l = some st) :
    IsStart st l ∧ st ≠ [] ∧ ∀ x ∈ st, x ≠ '<' := by
  obtain ⟨rfl, hs⟩ := starterPlain_elim h
  exact ⟨hs, hw.1, hw.2⟩

theorem starterWord_good {w l st : Str} (hw : ∀ x ∈ w, x ≠ '<')
    (h : starterWord w l = some st) :
    IsStart st l ∧ st ≠ [] ∧ ∀ x ∈ st, x ≠ '<' := by
  obtain ⟨c, t2, rfl, hc, rfl⟩ := starterWord_elim h
  refine ⟨⟨t2, by simp⟩, by simp, ?_⟩
  intro x hx
  rcases List.mem_append.mp hx with h1 | h1
  · exact hw x h1
  · rcases List.mem_singleton.mp h1 with rfl
    exact ws_ne_lt hc

theorem tryStarter_elim {l st : Str} (h : tryStarter l = some st) :
    IsStart st l ∧ st ≠ [] ∧ ∀ x ∈ st, x ≠ '<' := by
  unfold tryStarter at h
  rcases orTry_elim h with h | ⟨_, h⟩
  · exact starterPlain_good (by decide) h
  rcases orTry_elim h with h | ⟨_, h⟩
  · exact starterPlain_good (by decide) h
  rcases orTry_elim h with h | ⟨_, h⟩
  · exact starterPlain_good (by decide) h
  rcases orTry_elim h with h | ⟨_, h⟩
  · exact starterPlain_good (by decide) h
  rcases orTry_elim h with h | ⟨_, h⟩
  · exact starterWord_good (by decide) h
  rcases orTry_elim h with h | ⟨_, h⟩
  · exact starterWord_good (by decide) h
  rcases orTry_elim h with h | ⟨_, h⟩
  · exact starterWord_good (by decide) h
  rcases orTry_elim h with h | ⟨_, h⟩
  · exact starterWord_good (by decide) h
  rcases orTry_elim h with h | ⟨_, h⟩
  · exact starterWord_good (by decide) h
  rcases orTry_elim h with h | ⟨_, h⟩
  · exact starterWord_good (by decide) h
  rcases orTry_elim h with h | ⟨_, h⟩
  · exact starterWord_good (by decide) h
  rcases orTry_elim h with h | ⟨_, h⟩
  · exact starterWord_good (by decide) h
  rcases orTry_elim h with h | ⟨_, h⟩
  · exact starterWord_good (by decide) h
  rcases orTry_elim h with h | ⟨_, h⟩
  · exact starterWord_good (by decide) h
  rcases orTry_elim h with h | ⟨_, h⟩
  · exact starterWord_good (by decide) h
  · exact starterPlain_good (by decide) h

/-! ### Erasure computations on replacement templates -/

theorem erasePrd_append_ne (x l : Str) (h : ∀ y ∈ x, y ≠ '<') :
    erasePrd (x ++ l) = x ++ erasePrd l :=
  replaceAll_append_head_ne ['.'] x l h

theorem erasePrd_tok (l : Str) : erasePrd (prdTok ++ l) = '.' :: erasePrd l :=
  replaceAll_hit_token '<' ['p','r','d','>'] ['.'] l

theorem erasePrd_id (l : Str) (h : ∀ y ∈ l, y ≠ '<') : erasePrd l = l :=
  replaceAll_id_of_head_ne ['.'] l h

theorem eraseStop_append_ne (x l : Str) (h : ∀ y ∈ x, y ≠ '<') :
    eraseStop (x ++ l) = x ++ eraseStop l :=
  replaceAll_append_head_ne [] x l h

theorem eraseStop_tok (l : Str) : eraseStop (stopTok ++ l) = eraseStop l :=
  replaceAll_hit_token '<' ['s','t','o','p','>'] [] l

theorem eraseStop_id (l : Str) (h : ∀ y ∈ l, y ≠ '<') : eraseStop l = l :=
  replaceAll_id_of_head_ne [] l h

theorem eraseStopDot_append_ne (x l : Str) (h : ∀ y ∈ x, y ≠ '<') :
    eraseStopDot (x ++ l) = x ++ eraseStopDot l :=
  replaceAll_append_head_ne ['.'] x l h

theorem eraseStopDot_tok (l : Str) : eraseStopDot (stopTok ++ l) = '.' :: eraseStopDot l :=
  replaceAll_hit_token '<' ['s','t','o','p','>'] ['.'] l

theorem eraseStopDot_id (l : Str) (h : ∀ y ∈ l, y ≠ '<') : eraseStopDot l = l :=
  replaceAll_id_of_head_ne ['.'] l h

/-! ### Per-rule characterizations: erasure recovers the matched text, every
match contains a literal period, and every replacement character is either
copied from the buffer or one of the template characters. -/

/-- Branch helper for the word-then-period placeholder rules (rules 1 and 9's
shape `word ++ <prd>` matching `word ++ "."`). -/
theorem prd_branch (wbody t : Str) (hword : ∀ y ∈ wbody, y ≠ '<') :
    erasePrd (wbody ++ prdTok) = ((wbody ++ ['.']) ++ t).take (wbody.length + 1) ∧
      '.' ∈ (wbody ++ ['.']) ++ t ∧
      ∀ x ∈ wbody ++ prdTok, x ∈ (wbody ++ ['.']) ++ t ∨ x ∈ insChars := by
  refine ⟨?_, ?_, ?_⟩
  · rw [erasePrd_append_ne wbody prdTok hword,
      take_append_of_length t (by simp),
      show erasePrd prdTok = ['.'] from by decide]
  · exact List.mem_append_left t (List.mem_append_right wbody (List.mem_singleton.mpr rfl))
  · intro x hx
    rcases List.mem_append.mp hx with h2 | h2
    · exact Or.inl (List.mem_append_left t (List.mem_append_left ['.'] h2))
    · exact Or.inr ((by decide : ∀ y ∈ prdTok, y ∈ insChars) x h2)

theorem tryTitle_elim {l repl : Str} {k : Nat} (h : tryTitle l = some (repl, k)) :
    erasePrd repl = l.take (k + 1) ∧ '.' ∈ l ∧ ∀ x ∈ repl, x ∈ l ∨ x ∈ insChars := by
  unfold tryTitle at h
  by_cases h1 : (['M','r','.'] : Str).isPrefixOf l = true
  · rw [if_pos h1] at h
    injection h with hp
    injection hp with hr hk
    subst hr; subst hk
    obtain ⟨t, rfl⟩ := (isPrefixOf_iff _ _).1 h1
    exact prd_branch ['M','r'] t (by decide)
  rw [if_neg h1] at h
  by_cases h2 : (['S','t','.'] : Str).isPrefixOf l = true
  · rw [if_pos h2] at h
    injection h with hp
    injection hp with hr hk
    subst hr; subst hk
    obtain ⟨t, rfl⟩ := (isPrefixOf_iff _ _).1 h2
    exact prd_branch ['S','t'] t (by decide)
  rw [if_neg h2] at h
  by_cases h3 : (['M','r','s','.'] : Str).isPrefixOf l = true
  · rw [if_pos h3] at h
    injection h with hp
    injection hp with hr hk
    subst hr; subst hk
    obtain ⟨t, rfl⟩ := (isPrefixOf_iff _ _).1 h3
    exact prd_branch ['M','r','s'] t (by decide)
  rw [if_neg h3] at h
  by_cases h4 : (['M','s','.'] : Str).isPrefixOf l = true
  · rw [if_pos h4] at h
    injection h with hp
    injection hp with hr hk
    subst hr; subst hk
    obtain ⟨t, rfl⟩ := (isPrefixOf_iff _ _).1 h4
    exact prd_branch ['M','s'] t (by decide)
  rw [if_neg h4] at h
  by_cases h5 : (['D','r','.'] : Str).isPrefixOf l = true
  · rw [if_pos h5] at h
    injection h with hp
    injection hp with hr hk
    subst hr; subst hk
    obtain ⟨t, rfl⟩ := (isPrefixOf_iff _ _).1 h5
    exact prd_branch ['D','r'] t (by decide)
  rw [if_neg h5] at h
  exact Option.noConfusion h

/-- Branch helper for the website rule (period before the matched suffix). -/
theorem site_branch (walt t : Str) (hword : ∀ y ∈ walt, y ≠ '<') :
    erasePrd (prdTok ++ walt) = (('.' :: walt) ++ t).take (walt.length + 1) ∧
      '.' ∈ ('.' :: walt) ++ t ∧
      ∀ x ∈ prdTok ++ walt, x ∈ ('.' :: walt) ++ t ∨ x ∈ insChars := by
  refine ⟨?_, ?_, ?_⟩
  · rw [erasePrd_tok walt, erasePrd_id walt hword,
      take_append_of_length t (by simp)]
  · exact List.mem_append_left t (List.mem_cons_self '.' walt)
  · intro x hx
    rcases List.mem_append.mp hx with h2 | h2
    · exact Or.inr ((by decide : ∀ y ∈ prdTok, y ∈ insChars) x h2)
    · exact Or.inl (List.mem_append_left t (List.mem_cons_of_mem '.' h2))

theorem trySite_elim {l repl : Str} {k : Nat} (h : trySite l = some (repl, k)) :
    erasePrd repl = l.take (k + 1) ∧ '.' ∈ l ∧ ∀ x ∈ repl, x ∈ l ∨ x ∈ insChars := by
  unfold trySite at h
  by_cases h1 : (['.','c','o','m'] : Str).isPrefixOf l = true
  · rw [if_pos h1] at h
    injection h with hp
    injection hp with hr hk
    subst hr; subst hk
    obtain ⟨t, rfl⟩ := (isPrefixOf_iff _ _).1 h1
    exact site_branch ['c','o','m'] t (by decide)
  rw [if_neg h1] at h
  by_cases h2 : (['.','n','e','t'] : Str).isPrefixOf l = true
  · rw [if_pos h2] at h
    injection h with hp
    injection hp with hr hk
    subst hr; subst hk
    obtain ⟨t, rfl⟩ := (isPrefixOf_iff _ _).1 h2
    exact site_branch ['n','e','t'] t (by decide)
  rw [if_neg h2] at h
  by_cases h3 : (['.','o','r','g'] : Str).isPrefixOf l = true
  · rw [if_pos h3] at h
    injection h with hp
    injection hp with hr hk
    subst hr; subst hk
    obtain ⟨t, rfl⟩ := (isPrefixOf_iff _ _).1 h3
    exact site_branch ['o','r','g'] t (by decide)
  rw [if_neg h3] at h
  by_cases h4 : (['.','i','o'] : Str).isPrefixOf l = true
  · rw [if_pos h4] at h
    injection h with hp
    injection hp with hr hk
    subst hr; subst hk
    obtain ⟨t, rfl⟩ := (isPrefixOf_iff _ _).1 h4
    exact site_branch ['i','o'] t (by decide)
  rw [if_neg h4] at h
  by_cases h5 : (['.','g','o','v'] : Str).isPrefixOf l = true
  · rw [if_pos h5] at h
    injection h with hp
    injection hp with hr hk
    subst hr; subst hk
    obtain ⟨t, rfl⟩ := (isPrefixOf_iff _ _).1 h5
    exact site_branch ['g','o','v'] t (by decide)
  rw [if_neg h5] at h
  by_cases h6 : (['.','u','k'] : Str).isPrefixOf l = true
  · rw [if_pos h6] at h
    injection h with hp
    injection hp with hr hk
    subst hr; subst hk
    obtain ⟨t, rfl⟩ := (isPrefixOf_iff _ _).1 h6
    exact site_branch ['u','k'] t (by decide)
  rw [if_neg h6] at h
  exact Option.noConfusion h

theorem tryDecimal_elim {l repl : Str} {k : Nat} (h : tryDecimal l = some (repl, k)) :
    erasePrd repl = l.take (k + 1) ∧ '.' ∈ l ∧ ∀ x ∈ repl, x ∈ l ∨ x ∈ insChars := by
  rcases l with _ | ⟨a, _ | ⟨d, _ | ⟨b, t⟩⟩⟩
  · exact Option.noConfusion h
  · exact Option.noConfusion h
  · exact Option.noConfusion h
  have h2 : (if (isDigitCh a && d == '.' && isDigitCh b) = true
      then some ([a] ++ prdTok ++ [b], 2) else none) = some (repl, k) := h
  by_cases hc : (isDigitCh a && d == '.' && isDigitCh b) = true
  · rw [if_pos hc] at h2
    simp only [Bool.and_eq_true] at hc
    obtain ⟨⟨ha, hd⟩, hb⟩ := hc
    rcases eq_of_beq hd with rfl
    injection h2 with hp
    injection hp with hr hk
    subst hr; subst hk
    refine ⟨?_, List.mem_cons_of_mem a (List.mem_cons_self '.' (b :: t)), ?_⟩
    · rw [List.append_assoc, erasePrd_append_ne [a] _
        (by intro y hy; rcases List.mem_singleton.mp hy with rfl; exact digit_ne_lt ha),
        erasePrd_tok [b], erasePrd_id [b]
        (by intro y hy; rcases List.mem_singleton.mp hy with rfl; exact digit_ne_lt hb)]
      rfl
    · intro x hx
      rcases List.mem_append.mp hx with h3 | h3
      · rcases List.mem_append.mp h3 with h4 | h4
        · rw [List.mem_singleton.mp h4]
          exact Or.inl (List.mem_cons_self a _)
        · exact Or.inr ((by decide : ∀ y ∈ prdTok, y ∈ insChars) x h4)
      · rw [List.mem_singleton.mp h3]
        exact Or.inl (List.mem_cons_of_mem a (List.mem_cons_of_mem '.'
          (List.mem_cons_self b t)))
  · rw [if_neg hc] at h2
    exact Option.noConfusion h2

theorem tryInitialWs_elim {l repl : Str} {k : Nat} (h : tryInitialWs l = some (repl, k)) :
    (erasePrd repl = l.take (k + 1) ↔ l.take 1 = [' ']) ∧ '.' ∈ l ∧
      ∀ x ∈ repl, x ∈ l ∨ x ∈ insChars := by
  rcases l with _ | ⟨w, _ | ⟨a, _ | ⟨d, _ | ⟨sp, t⟩⟩⟩⟩
  · exact Option.noConfusion h
  · exact Option.noConfusion h
  · exact Option.noConfusion h
  · exact Option.noConfusion h
  have h2 : (if (isPyWs w && isAlphaCh a && d == '.' && sp == ' ') = true
      then some ([' ', a] ++ prdTok ++ [' '], 3) else none) = some (repl, k) := h
  by_cases hc : (isPyWs w && isAlphaCh a && d == '.' && sp == ' ') = true
  · rw [if_pos hc] at h2
    simp only [Bool.and_eq_true] at hc
    obtain ⟨⟨⟨hw, ha⟩, hd⟩, hsp⟩ := hc
    rcases eq_of_beq hd with rfl
    rcases eq_of_beq hsp with rfl
    injection h2 with hp
    injection hp with hr hk
    subst hr; subst hk
    have herase : erasePrd ([' ', a] ++ prdTok ++ [' ']) = [' ', a, '.', ' '] := by
      rw [List.append_assoc, erasePrd_append_ne [' ', a] _
        (by
          intro y hy
          rcases List.mem_cons.mp hy with rfl | hy2
          · decide
          rcases List.mem_singleton.mp hy2 with rfl
          exact alpha_ne_lt ha),
        erasePrd_tok [' '], erasePrd_id [' '] (by decide)]
      rfl
    refine ⟨?_, List.mem_cons_of_mem w (List.mem_cons_of_mem a
      (List.mem_cons_self '.' (' ' :: t))), ?_⟩
    · rw [herase]
      show ([' ', a, '.', ' '] = [w, a, '.', ' ']) ↔ ([w] = [' '])
      constructor
      · intro he
        injection he with he1 _
        rw [← he1]
      · intro he
        injection he with he1 _
        rw [he1]
    · intro x hx
      rcases List.mem_append.mp hx with h3 | h3
      · rcases List.mem_append.mp h3 with h4 | h4
        · rcases List.mem_cons.mp h4 with rfl | h5
          · exact Or.inr (by decide)
          rw [List.mem_singleton.mp h5]
          exact Or.inl (List.mem_cons_of_mem w (List.mem_cons_self a _))
        · exact Or.inr ((by decide : ∀ y ∈ prdTok, y ∈ insChars) x h4)
      · rcases List.mem_singleton.mp h3 with rfl
        exact Or.inr (by decide)
  · rw [if_neg hc] at h2
    exact Option.noConfusion h2

theorem tryAcronym3_elim {l repl : Str} {k : Nat} (h : tryAcronym3 l = some (repl, k)) :
    erasePrd repl = l.take (k + 1) ∧ '.' ∈ l ∧ ∀ x ∈ repl, x ∈ l ∨ x ∈ insChars := by
  rcases l with _ | ⟨a, _ | ⟨d1, _ | ⟨b, _ | ⟨d2, _ | ⟨c, _ | ⟨d3, t⟩⟩⟩⟩⟩⟩
  · exact Option.noConfusion h
  · exact Option.noConfusion h
  · exact Option.noConfusion h
  · exact Option.noConfusion h
  · exact Option.noConfusion h
  · exact Option.noConfusion h
  have h2 : (if (isAlphaCh a && d1 == '.' && isAlphaCh b && d2 == '.' && isAlphaCh c
        && d3 == '.') = true
      then some ([a] ++ prdTok ++ [b] ++ prdTok ++ [c] ++ prdTok, 5) else none) =
      some (repl, k) := h
  by_cases hc : (isAlphaCh a && d1 == '.' && isAlphaCh b && d2 == '.' && isAlphaCh c
      && d3 == '.') = true
  · rw [if_pos hc] at h2
    simp only [Bool.and_eq_true] at hc
    obtain ⟨⟨⟨⟨⟨ha, hd1⟩, hb⟩, hd2⟩, hcc⟩, hd3⟩ := hc
    rcases eq_of_beq hd1 with rfl
    rcases eq_of_beq hd2 with rfl
    rcases eq_of_beq hd3 with rfl
    injection h2 with hp
    injection hp with hr hk
    subst hr; subst hk
    refine ⟨?_, List.mem_cons_of_mem a (List.mem_cons_self '.' _), ?_⟩
    · have hassoc : [a] ++ prdTok ++ [b] ++ prdTok ++ [c] ++ prdTok =
          [a] ++ (prdTok ++ ([b] ++ (prdTok ++ ([c] ++ prdTok)))) := by simp
      rw [hassoc,
        erasePrd_append_ne [a] _
          (by intro y hy; rcases List.mem_singleton.mp hy with rfl; exact alpha_ne_lt ha),
        erasePrd_tok,
        erasePrd_append_ne [b] _
          (by intro y hy; rcases List.mem_singleton.mp hy with rfl; exact alpha_ne_lt hb),
        erasePrd_tok,
        erasePrd_append_ne [c] _
          (by intro y hy; rcases List.mem_singleton.mp hy with rfl; exact alpha_ne_lt hcc),
        show erasePrd prdTok = ['.'] from by decide]
      rfl
    · intro x hx
      have hx2 : x ∈ [a] ++ (prdTok ++ ([b] ++ (prdTok ++ ([c] ++ prdTok)))) := by
        simpa using hx
      rcases List.mem_append.mp hx2 with h3 | h3
      · rw [List.mem_singleton.mp h3]
        exact Or.inl (List.mem_cons_self a _)
      rcases List.mem_append.mp h3 with h3 | h3
      · exact Or.inr ((by decide : ∀ y ∈ prdTok, y ∈ insChars) x h3)
      rcases List.mem_append.mp h3 with h3 | h3
      · rw [List.mem_singleton.mp h3]
        exact Or.inl (List.mem_cons_of_mem a (List.mem_cons_of_mem '.'
          (List.mem_cons_self b _)))
      rcases List.mem_append.mp h3 with h3 | h3
      · exact Or.inr ((by decide : ∀ y ∈ prdTok, y ∈ insChars) x h3)
      rcases List.mem_append.mp h3 with h3 | h3
      · rw [List.mem_singleton.mp h3]
        exact Or.inl (List.mem_cons_of_mem a (List.mem_cons_of_mem '.'
          (List.mem_cons_of_mem b (List.mem_cons_of_mem '.' (List.mem_cons_self c _)))))
      · exact Or.inr ((by decide : ∀ y ∈ prdTok, y ∈ insChars) x h3)
  · rw [if_neg hc] at h2
    exact Option.noConfusion h2

theorem tryAcronym2_elim {l repl : Str} {k : Nat} (h : tryAcronym2 l = some (repl, k)) :
    erasePrd repl = l.take (k + 1) ∧ '.' ∈ l ∧ ∀ x ∈ repl, x ∈ l ∨ x ∈ insChars := by
  rcases l with _ | ⟨a, _ | ⟨d1, _ | ⟨b, _ | ⟨d2, t⟩⟩⟩⟩
  · exact Option.noConfusion h
  · exact Option.noConfusion h
  · exact Option.noConfusion h
  · exact Option.noConfusion h
  have h2 : (if (isAlphaCh a && d1 == '.' && isAlphaCh b && d2 == '.') = true
      then some ([a] ++ prdTok ++ [b] ++ prdTok, 3) else none) = some (repl, k) := h
  by_cases hc : (isAlphaCh a && d1 == '.' && isAlphaCh b && d2 == '.') = true
  · rw [if_pos hc] at h2
    simp only [Bool.and_eq_true] at hc
    obtain ⟨⟨⟨ha, hd1⟩, hb⟩, hd2⟩ := hc
    rcases eq_of_beq hd1 with rfl
    rcases eq_of_beq hd2 with rfl
    injection h2 with hp
    injection hp with hr hk
    subst hr; subst hk
    refine ⟨?_, List.mem_cons_of_mem a (List.mem_cons_self '.' _), ?_⟩
    · have hassoc : [a] ++ prdTok ++ [b] ++ prdTok =
          [a] ++ (prdTok ++ ([b] ++ prdTok)) := by simp
      rw [hassoc,
        erasePrd_append_ne [a] _
          (by intro y hy; rcases List.mem_singleton.mp hy with rfl; exact alpha_ne_lt ha),
        erasePrd_tok,
        erasePrd_append_ne [b] _
          (by intro y hy; rcases List.mem_singleton.mp hy with rfl; exact alpha_ne_lt hb),
        show erasePrd prdTok = ['.'] from by decide]
      rfl
    · intro x hx
      have hx2 : x ∈ [a] ++ (prdTok ++ ([b] ++ prdTok)) := by simpa using hx
      rcases List.mem_append.mp hx2 with h3 | h3
      · rw [List.mem_singleton.mp h3]
        exact Or.inl (List.mem_cons_self a _)
      rcases List.mem_append.mp h3 with h3 | h3
      · exact Or.inr ((by decide : ∀ y ∈ prdTok, y ∈ insChars) x h3)
      rcases List.mem_append.mp h3 with h3 | h3
      · rw [List.mem_singleton.mp h3]
        exact Or.inl (List.mem_cons_of_mem a (List.mem_cons_of_mem '.'
          (List.mem_cons_self b _)))
      · exact Or.inr ((by decide : ∀ y ∈ prdTok, y ∈ insChars) x h3)
  · rw [if_neg hc] at h2
    exact Option.noConfusion h2

theorem tryInitial_elim {l repl : Str} {k : Nat} (h : tryInitial l = some (repl, k)) :
    erasePrd repl = l.take (k + 1) ∧ '.' ∈ l ∧ ∀ x ∈ repl, x ∈ l ∨ x ∈ insChars := by
  rcases l with _ | ⟨sp, _ | ⟨a, _ | ⟨d, t⟩⟩⟩
  · exact Option.noConfusion h
  · exact Option.noConfusion h
  · exact Option.noConfusion h
  have h2 : (if (sp == ' ' && isAlphaCh a && d == '.') = true
      then some ([' ', a] ++ prdTok, 2) else none) = some (repl, k) := h
  by_cases hc : (sp == ' ' && isAlphaCh a && d == '.') = true
  · rw [if_pos hc] at h2
    simp only [Bool.and_eq_true] at hc
    obtain ⟨⟨hsp, ha⟩, hd⟩ := hc
    rcases eq_of_beq hsp with rfl
    rcases eq_of_beq hd with rfl
    injection h2 with hp
    injection hp with hr hk
    subst hr; subst hk
    refine ⟨?_, List.mem_cons_of_mem ' ' (List.mem_cons_of_mem a
      (List.mem_cons_self '.' t)), ?_⟩
    · rw [erasePrd_append_ne [' ', a] prdTok
        (by
          intro y hy
          rcases List.mem_cons.mp hy with rfl | hy2
          · decide
          rcases List.mem_singleton.mp hy2 with rfl
          exact alpha_ne_lt ha),
        show erasePrd prdTok = ['.'] from by decide]
      rfl
    · intro x hx
      rcases List.mem_append.mp hx with h3 | h3
      · rcases List.mem_cons.mp h3 with rfl | h4
        · exact Or.inl (List.mem_cons_self ' ' _)
        rw [List.mem_singleton.mp h4]
        exact Or.inl (List.mem_cons_of_mem ' ' (List.mem_cons_self a _))
      · exact Or.inr ((by decide : ∀ y ∈ prdTok, y ∈ insChars) x h3)
  · rw [if_neg hc] at h2
    exact Option.noConfusion h2

theorem suffixPrdAt_elim {w rest repl : Str} {k : Nat}
    (h : suffixPrdAt w rest = some (repl, k)) :
    ∃ t, rest = (w ++ ['.']) ++ t ∧ repl = [' '] ++ w ++ prdTok ∧ k = w.length + 1 := by
  unfold suffixPrdAt at h
  by_cases hw : (w ++ ['.']).isPrefixOf rest = true
  · rw [if_pos hw] at h
    injection h with hp
    injection hp with hr hk
    obtain ⟨t, rfl⟩ := (isPrefixOf_iff _ _).1 hw
    exact ⟨t, rfl, hr.symm, hk.symm⟩
  · rw [if_neg hw] at h
    exact Option.noConfusion h

theorem suffix_prd_branch (w t : Str) (hword : ∀ y ∈ w, y ≠ '<') :
    erasePrd ([' '] ++ w ++ prdTok) =
      (' ' :: ((w ++ ['.']) ++ t)).take (w.length + 1 + 1) ∧
      '.' ∈ ' ' :: ((w ++ ['.']) ++ t) ∧
      ∀ x ∈ [' '] ++ w ++ prdTok, x ∈ ' ' :: ((w ++ ['.']) ++ t) ∨ x ∈ insChars := by
  refine ⟨?_, ?_, ?_⟩
  · have h1 : ([' '] ++ w ++ prdTok : Str) = (' ' :: w) ++ prdTok := by simp
    have h2 : (' ' :: ((w ++ ['.']) ++ t) : Str) = ((' ' :: w) ++ ['.']) ++ t := by simp
    rw [h1, h2, erasePrd_append_ne (' ' :: w) prdTok
        (by
          intro y hy
          rcases List.mem_cons.mp hy with rfl | hy2
          · decide
          · exact hword y hy2),
      show erasePrd prdTok = ['.'] from by decide,
      take_append_of_length t (by simp)]
  · exact List.mem_cons_of_mem ' ' (List.mem_append_left t
      (List.mem_append_right w (List.mem_singleton.mpr rfl)))
  · intro x hx
    have hx2 : x ∈ (' ' :: w) ++ prdTok := by simpa using hx
    rcases List.mem_append.mp hx2 with h3 | h3
    · rcases List.mem_cons.mp h3 with h4 | h4
      · rw [h4]; exact Or.inr (by decide)
      · exact Or.inl (List.mem_cons_of_mem ' '
          (List.mem_append_left t (List.mem_append_left ['.'] h4)))
    · exact Or.inr ((by decide : ∀ y ∈ prdTok, y ∈ insChars) x h3)

theorem trySuffix_elim {l repl : Str} {k : Nat} (h : trySuffix l = some (repl, k)) :
    erasePrd repl = l.take (k + 1) ∧ '.' ∈ l ∧ ∀ x ∈ repl, x ∈ l ∨ x ∈ insChars := by
  rcases l with _ | ⟨sp, rest⟩
  · exact Option.noConfusion h
  simp only [trySuffix] at h
  by_cases hsp : (sp == ' ') = true
  · rw [if_pos hsp] at h
    rcases eq_of_beq hsp with rfl
    rcases orTry_elim h with h | ⟨_, h⟩
    · obtain ⟨t, rfl, rfl, rfl⟩ := suffixPrdAt_elim h
      exact suffix_prd_branch ['I','n','c'] t (by decide)
    rcases orTry_elim h with h | ⟨_, h⟩
    · obtain ⟨t, rfl, rfl, rfl⟩ := suffixPrdAt_elim h
      exact suffix_prd_branch ['L','t','d'] t (by decide)
    rcases orTry_elim h with h | ⟨_, h⟩
    · obtain ⟨t, rfl, rfl, rfl⟩ := suffixPrdAt_elim h
      exact suffix_prd_branch ['J','r'] t (by decide)
    rcases orTry_elim h with h | ⟨_, h⟩
    · obtain ⟨t, rfl, rfl, rfl⟩ := suffixPrdAt_elim h
      exact suffix_prd_branch ['S','r'] t (by decide)
    · obtain ⟨t, rfl, rfl, rfl⟩ := suffixPrdAt_elim h
      exact suffix_prd_branch ['C','o'] t (by decide)
  · rw [if_neg hsp] at h
    exact Option.noConfusion h

theorem suffixStarterAt_elim {w rest repl : Str} {k : Nat}
    (h : suffixStarterAt w rest = some (repl, k)) :
    ∃ st t2, rest = (w ++ ['.',' ']) ++ (st ++ t2) ∧
      repl = [' '] ++ w ++ stopTok ++ [' '] ++ st ∧
      k = w.length + 2 + st.length ∧ st ≠ [] ∧ ∀ x ∈ st, x ≠ '<' := by
  unfold suffixStarterAt at h
  by_cases hw : (w ++ ['.',' ']).isPrefixOf rest = true
  · rw [if_pos hw] at h
    obtain ⟨t, rfl⟩ := (isPrefixOf_iff _ _).1 hw
    have hdrop : ((w ++ ['.',' ']) ++ t).drop (w.length + 2) = t := by
      rw [show w.length + 2 = (w ++ ['.',' ']).length by simp, List.drop_left]
    rw [hdrop] at h
    cases hst : tryStarter t with
    | none => rw [hst] at h; exact Option.noConfusion h
    | some st =>
      rw [hst] at h
      have h3 : some (([' '] ++ w ++ stopTok ++ [' '] ++ st : Str),
          w.length + 2 + st.length) = some (repl, k) := h
      injection h3 with hp
      injection hp with hr hk
      obtain ⟨hstart, hne, hlt⟩ := tryStarter_elim hst
      obtain ⟨t2, rfl⟩ := hstart
      exact ⟨st, t2, rfl, hr.symm, hk.symm, hne, hlt⟩
  · rw [if_neg hw] at h
    exact Option.noConfusion h

theorem suffix_stop_branch (w st t2 : Str) (hword : ∀ y ∈ w, y ≠ '<')
    (hlt : ∀ x ∈ st, x ≠ '<') :
    eraseStopDot ([' '] ++ w ++ stopTok ++ [' '] ++ st) =
      (' ' :: ((w ++ ['.',' ']) ++ (st ++ t2))).take (w.length + 2 + st.length + 1) ∧
      '.' ∈ ' ' :: ((w ++ ['.',' ']) ++ (st ++ t2)) ∧
      ∀ x ∈ [' '] ++ w ++ stopTok ++ [' '] ++ st,
        x ∈ ' ' :: ((w ++ ['.',' ']) ++ (st ++ t2)) ∨ x ∈ insChars := by
  refine ⟨?_, ?_, ?_⟩
  · have h1 : ([' '] ++ w ++ stopTok ++ [' '] ++ st : Str) =
        (' ' :: w) ++ (stopTok ++ ([' '] ++ st)) := by simp
    have h2 : (' ' :: ((w ++ ['.',' ']) ++ (st ++ t2)) : Str) =
        (((' ' :: w) ++ ['.',' ']) ++ st) ++ t2 := by simp
    rw [h1, eraseStopDot_append_ne (' ' :: w) _
        (by
          intro y hy
          rcases List.mem_cons.mp hy with rfl | hy2
          · decide
          · exact hword y hy2),
      eraseStopDot_tok, eraseStopDot_id ([' '] ++ st)
        (by
          intro y hy
          rcases List.mem_append.mp hy with hy2 | hy2
          · rcases List.mem_singleton.mp hy2 with rfl; decide
          · exact hlt y hy2),
      h2, take_append_of_length t2 (by simp [List.length_append]; omega)]
    simp
  · exact List.mem_cons_of_mem ' ' (List.mem_append_left (st ++ t2)
      (List.mem_append_right w (List.mem_cons_self '.' [' '])))
  · intro x hx
    have hx2 : x ∈ (' ' :: w) ++ (stopTok ++ ([' '] ++ st)) := by simpa using hx
    rcases List.mem_append.mp hx2 with h3 | h3
    · rcases List.mem_cons.mp h3 with h4 | h4
      · rw [h4]; exact Or.inr (by decide)
      · exact Or.inl (List.mem_cons_of_mem ' ' (List.mem_append_left (st ++ t2)
          (List.mem_append_left ['.',' '] h4)))
    · rcases List.mem_append.mp h3 with h4 | h4
      · exact Or.inr ((by decide : ∀ y ∈ stopTok, y ∈ insChars) x h4)
      · rcases List.mem_append.mp h4 with h5 | h5
        · rw [List.mem_singleton.mp h5]; exact Or.inr (by decide)
        · exact Or.inl (List.mem_cons_of_mem ' ' (List.mem_append_right (w ++ ['.',' '])
            (List.mem_append_left t2 h5)))

theorem trySuffixStarter_elim {l repl : Str} {k : Nat}
    (h : trySuffixStarter l = some (repl, k)) :
    eraseStopDot repl = l.take (k + 1) ∧ '.' ∈ l ∧ ∀ x ∈ repl, x ∈ l ∨ x ∈ insChars := by
  rcases l with _ | ⟨sp, rest⟩
  · exact Option.noConfusion h
  simp only [trySuffixStarter] at h
  by_cases hsp : (sp == ' ') = true
  · rw [if_pos hsp] at h
    rcases eq_of_beq hsp with rfl
    rcases orTry_elim h with h | ⟨_, h⟩
    · obtain ⟨st, t2, rfl, rfl, rfl, _, hlt⟩ := suffixStarterAt_elim h
      exact suffix_stop_branch ['I','n','c'] st t2 (by decide) hlt
    rcases orTry_elim h with h | ⟨_, h⟩
    · obtain ⟨st, t2, rfl, rfl, rfl, _, hlt⟩ := suffixStarterAt_elim h
      exact suffix_stop_branch ['L','t','d'] st t2 (by decide) hlt
    rcases orTry_elim h with h | ⟨_, h⟩
    · obtain ⟨st, t2, rfl, rfl, rfl, _, hlt⟩ := suffixStarterAt_elim h
      exact suffix_stop_branch ['J','r'] st t2 (by decide) hlt
    rcases orTry_elim h with h | ⟨_, h⟩
    · obtain ⟨st, t2, rfl, rfl, rfl, _, hlt⟩ := suffixStarterAt_elim h
      exact suffix_stop_branch ['S','r'] st t2 (by decide) hlt
    · obtain ⟨st, t2, rfl, rfl, rfl, _, hlt⟩ := suffixStarterAt_elim h
      exact suffix_stop_branch ['C','o'] st t2 (by decide) hlt
  · rw [if_neg hsp] at h
    exact Option.noConfusion h

theorem acronym2At_elim {a b : Char} {rest repl : Str} {k : Nat}
    (h : acronym2At a b rest = some (repl, k)) :
    ∃ st t2, rest = ' ' :: (st ++ t2) ∧
      repl = [a,'.',b,'.'] ++ stopTok ++ [' '] ++ st ∧
      k = 4 + st.length ∧ st ≠ [] ∧ ∀ x ∈ st, x ≠ '<' := by
  rcases rest with _ | ⟨sp, rest3⟩
  · exact Option.noConfusion h
  simp only [acronym2At] at h
  by_cases hsp : (sp == ' ') = true
  · rw [if_pos hsp] at h
    rcases eq_of_beq hsp with rfl
    cases hst : tryStarter rest3 with
    | none => rw [hst] at h; exact Option.noConfusion h
    | some st =>
      rw [hst] at h
      have h3 : some (([a,'.',b,'.'] ++ stopTok ++ [' '] ++ st : Str), 4 + st.length) =
          some (repl, k) := h
      injection h3 with hp
      injection hp with hr hk
      obtain ⟨hstart, hne, hlt⟩ := tryStarter_elim hst
      obtain ⟨t2, rfl⟩ := hstart
      exact ⟨st, t2, rfl, hr.symm, hk.symm, hne, hlt⟩
  · rw [if_neg hsp] at h
    exact Option.noConfusion h

theorem acronym2_branch {a b : Char} (ha : isUpperCh a = true) (hb : isUpperCh b = true)
    {rest repl : Str} {k : Nat} (h : acronym2At a b rest = some (repl, k)) :
    eraseStop repl = (a :: '.' :: b :: '.' :: rest).take (k + 1) ∧
      '.' ∈ a :: '.' :: b :: '.' :: rest ∧
      ∀ x ∈ repl, x ∈ a :: '.' :: b :: '.' :: rest ∨ x ∈ insChars := by
  obtain ⟨st, t2, rfl, rfl, rfl, _, hlt⟩ := acronym2At_elim h
  refine ⟨?_, List.mem_cons_of_mem a (List.mem_cons_self '.' _), ?_⟩
  · have h1 : ([a,'.',b,'.'] ++ stopTok ++ [' '] ++ st : Str) =
        [a,'.',b,'.'] ++ (stopTok ++ ([' '] ++ st)) := by simp
    have h2 : (a :: '.' :: b :: '.' :: ' ' :: (st ++ t2) : Str) =
        ([a,'.',b,'.',' '] ++ st) ++ t2 := by simp
    rw [h1, eraseStop_append_ne [a,'.',b,'.'] _
        (by
          intro y hy
          rcases List.mem_cons.mp hy with rfl | hy
          · exact upper_ne_lt ha
          rcases List.mem_cons.mp hy with rfl | hy
          · decide
          rcases List.mem_cons.mp hy with rfl | hy
          · exact upper_ne_lt hb
          rcases List.mem_cons.mp hy with rfl | hy
          · decide
          exact absurd hy (List.not_mem_nil y)),
      eraseStop_tok, eraseStop_id ([' '] ++ st)
        (by
          intro y hy
          rcases List.mem_append.mp hy with hy2 | hy2
          · rcases List.mem_singleton.mp hy2 with rfl; decide
          · exact hlt y hy2),
      h2, take_append_of_length t2 (by simp [List.length_append]; omega)]
    simp
  · intro x hx
    have hx2 : x ∈ [a,'.',b,'.'] ++ (stopTok ++ ([' '] ++ st)) := by simpa using hx
    rcases List.mem_append.mp hx2 with h3 | h3
    · rcases List.mem_cons.mp h3 with h4 | h3
      · rw [h4]; exact Or.inl (List.mem_cons_self a _)
      rcases List.mem_cons.mp h3 with h4 | h3
      · rw [h4]; exact Or.inl (List.mem_cons_of_mem a (List.mem_cons_self '.' _))
      rcases List.mem_cons.mp h3 with h4 | h3
      · rw [h4]
        exact Or.inl (List.mem_cons_of_mem a (List.mem_cons_of_mem '.'
          (List.mem_cons_self b _)))
      rcases List.mem_cons.mp h3 with h4 | h3
      · rw [h4]
        exact Or.inl (List.mem_cons_of_mem a (List.mem_cons_of_mem '.'
          (List.mem_cons_of_mem b (List.mem_cons_self '.' _))))
      exact absurd h3 (List.not_mem_nil x)
    · rcases List.mem_append.mp h3 with h4 | h4
      · exact Or.inr ((by decide : ∀ y ∈ stopTok, y ∈ insChars) x h4)
      · rcases List.mem_append.mp h4 with h5 | h5
        · rw [List.mem_singleton.mp h5]; exact Or.inr (by decide)
        · exact Or.inl (List.mem_cons_of_mem a (List.mem_cons_of_mem '.'
            (List.mem_cons_of_mem b (List.mem_cons_of_mem '.'
              (List.mem_cons_of_mem ' ' (List.mem_append_left t2 h5))))))

theorem acronym3_branch {a b c : Char} (ha : isUpperCh a = true)
    (hb : isUpperCh b = true) (hc : isUpperCh c = true) (st t2 : Str)
    (hlt : ∀ x ∈ st, x ≠ '<') :
    eraseStop ([a,'.',b,'.',c,'.'] ++ stopTok ++ [' '] ++ st) =
      (a :: '.' :: b :: '.' :: c :: '.' :: ' ' :: (st ++ t2)).take (6 + st.length + 1) ∧
      '.' ∈ a :: '.' :: b :: '.' :: c :: '.' :: ' ' :: (st ++ t2) ∧
      ∀ x ∈ [a,'.',b,'.',c,'.'] ++ stopTok ++ [' '] ++ st,
        x ∈ a :: '.' :: b :: '.' :: c :: '.' :: ' ' :: (st ++ t2) ∨ x ∈ insChars := by
  refine ⟨?_, List.mem_cons_of_mem a (List.mem_cons_self '.' _), ?_⟩
  · have h1 : ([a,'.',b,'.',c,'.'] ++ stopTok ++ [' '] ++ st : Str) =
        [a,'.',b,'.',c,'.'] ++ (stopTok ++ ([' '] ++ st)) := by simp
    have h2 : (a :: '.' :: b :: '.' :: c :: '.' :: ' ' :: (st ++ t2) : Str) =
        ([a,'.',b,'.',c,'.',' '] ++ st) ++ t2 := by simp
    rw [h1, eraseStop_append_ne [a,'.',b,'.',c,'.'] _
        (by
          intro y hy
          rcases List.mem_cons.mp hy with rfl | hy
          · exact upper_ne_lt ha
          rcases List.mem_cons.mp hy with rfl | hy
          · decide
          rcases List.mem_cons.mp hy with rfl | hy
          · exact upper_ne_lt hb
          rcases List.mem_cons.mp hy with rfl | hy
          · decide
          rcases List.mem_cons.mp hy with rfl | hy
          · exact upper_ne_lt hc
          rcases List.mem_cons.mp hy with rfl | hy
          · decide
          exact absurd hy (List.not_mem_nil y)),
      eraseStop_tok, eraseStop_id ([' '] ++ st)
        (by
          intro y hy
          rcases List.mem_append.mp hy with hy2 | hy2
          · rcases List.mem_singleton.mp hy2 with rfl; decide
          · exact hlt y hy2),
      h2, take_append_of_length t2 (by simp [List.length_append]; omega)]
    simp
  · intro x hx
    have hx2 : x ∈ [a,'.',b,'.',c,'.'] ++ (stopTok ++ ([' '] ++ st)) := by simpa using hx
    rcases List.mem_append.mp hx2 with h3 | h3
    · rcases List.mem_cons.mp h3 with h4 | h3
      · rw [h4]; exact Or.inl (List.mem_cons_self a _)
      rcases List.mem_cons.mp h3 with h4 | h3
      · rw [h4]; exact Or.inl (List.mem_cons_of_mem a (List.mem_cons_self '.' _))
      rcases List.mem_cons.mp h3 with h4 | h3
      · rw [h4]
        exact Or.inl (List.mem_cons_of_mem a (List.mem_cons_of_mem '.'
          (List.mem_cons_self b _)))
      rcases List.mem_cons.mp h3 with h4 | h3
      · rw [h4]
        exact Or.inl (List.mem_cons_of_mem a (List.mem_cons_of_mem '.'
          (List.mem_cons_of_mem b (List.mem_cons_self '.' _))))
      rcases List.mem_cons.mp h3 with h4 | h3
      · rw [h4]
        exact Or.inl (List.mem_cons_of_mem a (List.mem_cons_of_mem '.'
          (List.mem_cons_of_mem b (List.mem_cons_of_mem '.' (List.mem_cons_self c _)))))
      rcases List.mem_cons.mp h3 with h4 | h3
      · rw [h4]
        exact Or.inl (List.mem_cons_of_mem a (List.mem_cons_of_mem '.'
          (List.mem_cons_of_mem b (List.mem_cons_of_mem '.'
            (List.mem_cons_of_mem c (List.mem_cons_self '.' _))))))
      exact absurd h3 (List.not_mem_nil x)
    · rcases List.mem_append.mp h3 with h4 | h4
      · exact Or.inr ((by decide : ∀ y ∈ stopTok, y ∈ insChars) x h4)
      · rcases List.mem_append.mp h4 with h5 | h5
        · rw [List.mem_singleton.mp h5]; exact Or.inr (by decide)
        · exact Or.inl (List.mem_cons_of_mem a (List.mem_cons_of_mem '.'
            (List.mem_cons_of_mem b (List.mem_cons_of_mem '.'
              (List.mem_cons_of_mem c (List.mem_cons_of_mem '.'
                (List.mem_cons_of_mem ' ' (List.mem_append_left t2 h5))))))))

theorem tryAcronymStarter_elim {l repl : Str} {k : Nat}
    (h : tryAcronymStarter l = some (repl, k)) :
    eraseStop repl = l.take (k + 1) ∧ '.' ∈ l ∧ ∀ x ∈ repl, x ∈ l ∨ x ∈ insChars := by
  rcases l with _ | ⟨a, _ | ⟨d1, _ | ⟨b, _ | ⟨d2, rest⟩⟩⟩⟩
  · exact Option.noConfusion h
  · exact Option.noConfusion h
  · exact Option.noConfusion h
  · exact Option.noConfusion h
  simp only [tryAcronymStarter] at h
  by_cases hcnd : (isUpperCh a && d1 == '.' && isUpperCh b && d2 == '.') = true
  · rw [if_pos hcnd] at h
    simp only [Bool.and_eq_true] at hcnd
    obtain ⟨⟨⟨ha, hd1⟩, hb⟩, hd2⟩ := hcnd
    rcases eq_of_beq hd1 with rfl
    rcases eq_of_beq hd2 with rfl
    rcases rest with _ | ⟨c, _ | ⟨d3, _ | ⟨sp, rest2⟩⟩⟩
    · exact acronym2_branch ha hb h
    · exact acronym2_branch ha hb h
    · exact acronym2_branch ha hb h
    have h2 : (if (isUpperCh c && d3 == '.' && sp == ' ') = true then
        (match tryStarter rest2 with
         | some st =>
           some (([a,'.',b,'.',c,'.'] ++ stopTok ++ [' '] ++ st : Str), 6 + st.length)
         | none => acronym2At a b (c :: d3 :: sp :: rest2))
        else acronym2At a b (c :: d3 :: sp :: rest2)) = some (repl, k) := h
    by_cases hcnd2 : (isUpperCh c && d3 == '.' && sp == ' ') = true
    · rw [if_pos hcnd2] at h2
      simp only [Bool.and_eq_true] at hcnd2
      obtain ⟨⟨hc, hd3⟩, hsp⟩ := hcnd2
      rcases eq_of_beq hd3 with rfl
      rcases eq_of_beq hsp with rfl
      cases hst : tryStarter rest2 with
      | none =>
        rw [hst] at h2
        exact acronym2_branch ha hb h2
      | some st =>
        rw [hst] at h2
        have h3 : some (([a,'.',b,'.',c,'.'] ++ stopTok ++ [' '] ++ st : Str),
            6 + st.length) = some (repl, k) := h2
        injection h3 with hp
        injection hp with hr hk
        subst hr; subst hk
        obtain ⟨hstart, _, hlt⟩ := tryStarter_elim hst
        obtain ⟨t2, rfl⟩ := hstart
        exact acronym3_branch ha hb hc st t2 hlt
    · rw [if_neg hcnd2] at h2
      exact acronym2_branch ha hb h2
  · rw [if_neg hcnd] at h
    exact Option.noConfusion h

/-! ### Stage-level consequences -/

theorem none_of_ws {tm : Str → Option (Str × Nat)}
    (hdot : ∀ {m repl : Str} {k : Nat}, tm m = some (repl, k) → '.' ∈ m)
    (m : Str) (hm : ∀ x ∈ m, isPyWs x = true) : tm m = none := by
  cases hmt : tm m with
  | none => rfl
  | some pk =>
    obtain ⟨repl, k⟩ := pk
    exact absurd (hm '.' (hdot hmt)) (by decide)

theorem ws_all_ne (l : Str) (hl : ∀ x ∈ l, isPyWs x = true) (cbad : Char)
    (hcb : isPyWs cbad = false) : ∀ x ∈ l, x ≠ cbad := by
  intro x hx heq
  have h2 := hl x hx
  rw [heq, hcb] at h2
  exact Bool.noConfusion h2

theorem pred_of_chars {tm : Str → Option (Str × Nat)} {P : Char → Prop}
    (helim : ∀ {m repl : Str} {k : Nat}, tm m = some (repl, k) →
      ∀ x ∈ repl, x ∈ m ∨ x ∈ insChars)
    (hP : ∀ x ∈ insChars, P x) :
    ∀ (m repl : Str) (k : Nat), tm m = some (repl, k) → (∀ x ∈ m, P x) →
      ∀ x ∈ repl, P x := by
  intro m repl k h hm x hx
  rcases helim h x hx with h2 | h2
  · exact hm x h2
  · exact hP x h2

theorem ite_replaceAll_pred (P : Char → Prop) (b : Bool) (p r l : Str)
    (hr : ∀ x ∈ r, P x) (hl : ∀ x ∈ l, P x) :
    ∀ x ∈ (if b = true then replaceAll p r l else l), P x := by
  cases b
  · simpa using hl
  · simpa using replaceAll_pred p r P hr l hl

theorem substitutionsCore_ws_id (l : Str) (hl : ∀ x ∈ l, isPyWs x = true) :
    substitutionsCore l = l := by
  show subst tryInitial (subst trySuffix (subst trySuffixStarter (subst tryAcronym2
    (subst tryAcronym3 (subst tryAcronymStarter (subst tryInitialWs (subst tryDecimal
      (subst trySite (subst tryTitle l))))))))) = l
  rw [subst_id tryTitle isPyWs (none_of_ws fun h => (tryTitle_elim h).2.1) l hl,
    subst_id trySite isPyWs (none_of_ws fun h => (trySite_elim h).2.1) l hl,
    subst_id tryDecimal isPyWs (none_of_ws fun h => (tryDecimal_elim h).2.1) l hl,
    subst_id tryInitialWs isPyWs (none_of_ws fun h => (tryInitialWs_elim h).2.1) l hl,
    subst_id tryAcronymStarter isPyWs
      (none_of_ws fun h => (tryAcronymStarter_elim h).2.1) l hl,
    subst_id tryAcronym3 isPyWs (none_of_ws fun h => (tryAcronym3_elim h).2.1) l hl,
    subst_id tryAcronym2 isPyWs (none_of_ws fun h => (tryAcronym2_elim h).2.1) l hl,
    subst_id trySuffixStarter isPyWs
      (none_of_ws fun h => (trySuffixStarter_elim h).2.1) l hl,
    subst_id trySuffix isPyWs (none_of_ws fun h => (trySuffix_elim h).2.1) l hl,
    subst_id tryInitial isPyWs (none_of_ws fun h => (tryInitial_elim h).2.1) l hl]

theorem substitutionsCore_pred (l : Str) (hl : ∀ x ∈ l, x ≠ '\n') :
    ∀ x ∈ substitutionsCore l, x ≠ '\n' := by
  show ∀ x ∈ subst tryInitial (subst trySuffix (subst trySuffixStarter (subst tryAcronym2
    (subst tryAcronym3 (subst tryAcronymStarter (subst tryInitialWs (subst tryDecimal
      (subst trySite (subst tryTitle l))))))))), x ≠ '\n'
  have hP : ∀ x ∈ insChars, x ≠ '\n' := by decide
  exact subst_pred tryInitial _ (pred_of_chars (fun h => (tryInitial_elim h).2.2) hP) _
    (subst_pred trySuffix _ (pred_of_chars (fun h => (trySuffix_elim h).2.2) hP) _
    (subst_pred trySuffixStarter _
      (pred_of_chars (fun h => (trySuffixStarter_elim h).2.2) hP) _
    (subst_pred tryAcronym2 _ (pred_of_chars (fun h => (tryAcronym2_elim h).2.2) hP) _
    (subst_pred tryAcronym3 _ (pred_of_chars (fun h => (tryAcronym3_elim h).2.2) hP) _
    (subst_pred tryAcronymStarter _
      (pred_of_chars (fun h => (tryAcronymStarter_elim h).2.2) hP) _
    (subst_pred tryInitialWs _ (pred_of_chars (fun h => (tryInitialWs_elim h).2.2) hP) _
    (subst_pred tryDecimal _ (pred_of_chars (fun h => (tryDecimal_elim h).2.2) hP) _
    (subst_pred trySite _ (pred_of_chars (fun h => (trySite_elim h).2.2) hP) _
    (subst_pred tryTitle _ (pred_of_chars (fun h => (tryTitle_elim h).2.2) hP) l hl)))))))))

theorem specialCharsCore_ws_id (l : Str) (hl : ∀ x ∈ l, isPyWs x = true) :
    specialCharsCore l = l := by
  have g1 : containsSub ['”'] l = false :=
    containsSub_false_of_head l (ws_all_ne l hl '”' (by decide))
  have g2 : containsSub ['"'] l = false :=
    containsSub_false_of_head l (ws_all_ne l hl '"' (by decide))
  have g3 : containsSub ['!'] l = false :=
    containsSub_false_of_head l (ws_all_ne l hl '!' (by decide))
  have g4 : containsSub ['?'] l = false :=
    containsSub_false_of_head l (ws_all_ne l hl '?' (by decide))
  simp [specialCharsCore, g1, g2, g3, g4]

theorem specialCharsCore_pred (l : Str) (hl : ∀ x ∈ l, x ≠ '\n') :
    ∀ x ∈ specialCharsCore l, x ≠ '\n' := by
  show ∀ x ∈ (if containsSub ['?'] (if containsSub ['!'] (if containsSub ['"']
      (if containsSub ['”'] l = true then replaceAll ['.','”'] ['”','.'] l else l) = true
      then replaceAll ['.','"'] ['"','.'] _ else _) = true
      then replaceAll ['!','"'] ['"','!'] _ else _) = true
      then replaceAll ['?','"'] ['"','?'] _ else _), x ≠ '\n'
  refine ite_replaceAll_pred _ _ _ _ _ (by decide) ?_
  refine ite_replaceAll_pred _ _ _ _ _ (by decide) ?_
  refine ite_replaceAll_pred _ _ _ _ _ (by decide) ?_
  refine ite_replaceAll_pred _ _ _ _ _ (by decide) ?_
  exact hl

theorem replacePlaceholdersCore_ws_id (l : Str) (hl : ∀ x ∈ l, isPyWs x = true) :
    replacePlaceholdersCore l = l := by
  have g1 : containsSub ['.'] l = false :=
    containsSub_false_of_head l (ws_all_ne l hl '.' (by decide))
  have g2 : containsSub ['?'] l = false :=
    containsSub_false_of_head l (ws_all_ne l hl '?' (by decide))
  have g3 : containsSub ['!'] l = false :=
    containsSub_false_of_head l (ws_all_ne l hl '!' (by decide))
  have g4 : containsSub prdTok l = false :=
    containsSub_false_of_head l (ws_all_ne l hl '<' (by decide))
  show replaceAll prdTok ['.'] (replaceAll ['!'] ('!' :: stopTok)
    (replaceAll ['?'] ('?' :: stopTok) (replaceAll ['.'] ('.' :: stopTok) l))) = l
  rw [replaceAll_id _ _ l g1, replaceAll_id _ _ l g2, replaceAll_id _ _ l g3,
    replaceAll_id _ _ l g4]

theorem replacePlaceholdersCore_pred (l : Str) (hl : ∀ x ∈ l, x ≠ '\n') :
    ∀ x ∈ replacePlaceholdersCore l, x ≠ '\n' := by
  show ∀ x ∈ replaceAll prdTok ['.'] (replaceAll ['!'] ('!' :: stopTok)
    (replaceAll ['?'] ('?' :: stopTok) (replaceAll ['.'] ('.' :: stopTok) l))), x ≠ '\n'
  exact replaceAll_pred _ _ _ (by decide) _
    (replaceAll_pred _ _ _ (by decide) _
    (replaceAll_pred _ _ _ (by decide) _
    (replaceAll_pred _ _ _ (by decide) l hl)))

theorem createSentencesCore_ws (l : Str) (hl : ∀ x ∈ l, isPyWs x = true) :
    createSentencesCore l = [] := by
  unfold createSentencesCore
  rw [splitOn_not_contains stopTok l
    (containsSub_false_of_head l (ws_all_ne l hl '<' (by decide)))]
  rw [show ([l].map strip) = [strip l] from rfl, strip_all_ws l hl]
  rfl

theorem createSentencesCore_frag {l f : Str} (hf : f ∈ createSentencesCore l) :
    ∃ g ∈ splitOn stopTok l, f = strip g ∧ f ≠ [] := by
  unfold createSentencesCore at hf
  obtain ⟨hmm2, hpred⟩ := List.mem_filter.mp hf
  obtain ⟨g, hg, hfg⟩ := List.mem_map.mp hmm2
  refine ⟨g, hg, hfg.symm, ?_⟩
  intro he
  rw [he] at hpred
  exact absurd hpred (by decide)

/-! ### Helpers for the extraction idempotence analysis -/

theorem within_append_split {p x y : Str} (h : Within p (x ++ y)) :
    Within p x ∨ Within p y ∨
      ∃ p1 p2, p = p1 ++ p2 ∧ p1 ≠ [] ∧ p2 ≠ [] ∧
        (∃ u, u ++ p1 = x) ∧ (∃ v, p2 ++ v = y) := by
  obtain ⟨a, b, hab⟩ := h
  rw [List.append_assoc] at hab
  rcases List.append_eq_append_iff.mp hab.symm with ⟨k, hk1, hk2⟩ | ⟨k, hk1, hk2⟩
  · -- x = a ++ k, p ++ b = k ++ y
    rcases List.append_eq_append_iff.mp hk2 with ⟨m, hm1, hm2⟩ | ⟨m, hm1, hm2⟩
    · -- k = p ++ m
      left
      exact ⟨a, m, by rw [hk1, hm1]; simp⟩
    · -- p = k ++ m, y = m ++ b
      cases k with
      | nil =>
        right; left
        refine ⟨[], b, ?_⟩
        simp only [List.nil_append] at hm1 ⊢
        rw [hm2, hm1]
      | cons k0 k1 =>
        cases m with
        | nil =>
          left
          refine ⟨a, [], ?_⟩
          rw [hk1, hm1]
          simp
        | cons m0 m1 =>
          right; right
          exact ⟨k0 :: k1, m0 :: m1, hm1, List.cons_ne_nil k0 k1, List.cons_ne_nil m0 m1,
            ⟨a, hk1.symm⟩, ⟨b, hm2.symm⟩⟩
  · -- a = x ++ k, y = k ++ (p ++ b)
    right; left
    exact ⟨k, b, by rw [hk2]; simp⟩

theorem isStart_of_isStart_le {a b l : Str} (ha : IsStart a l) (hb : IsStart b l)
    (hlen : a.length ≤ b.length) : IsStart a b := by
  obtain ⟨t, ht⟩ := ha
  obtain ⟨u, hu⟩ := hb
  have h := ht.trans hu.symm
  rcases List.append_eq_append_iff.mp h with ⟨k, hk1, _⟩ | ⟨k, hk1, _⟩
  · exact ⟨k, hk1.symm⟩
  · have hlk := congrArg List.length hk1
    simp [List.length_append] at hlk
    have hk0 : k = [] := List.length_eq_zero.mp (by omega)
    rw [hk0, List.append_nil] at hk1
    rw [hk1]
    exact ⟨[], List.append_nil b⟩

theorem last_eq_of_append_single {q b : Str} {c t0 : Char}
    (h : q ++ [c] = b ++ [t0]) : c = t0 := by
  have h2 := congrArg List.reverse h
  simp only [List.reverse_append, List.reverse_cons, List.reverse_nil,
    List.nil_append, List.singleton_append] at h2
  injection h2

theorem dropLast_append_single : ∀ (b : Str) (t0 : Char), (b ++ [t0]).dropLast = b
  | [], _ => rfl
  | [_], _ => rfl
  | c :: c2 :: bs, t0 => by
    show c :: ((c2 :: bs ++ [t0]).dropLast) = c :: c2 :: bs
    rw [dropLast_append_single (c2 :: bs) t0]

theorem exists_append_single : ∀ (l : Str), l ≠ [] → ∃ b t0, l = b ++ [t0]
  | [], h => absurd rfl h
  | [c], _ => ⟨[], c, rfl⟩
  | c :: c2 :: cs, _ => by
    obtain ⟨b, t0, hb⟩ := exists_append_single (c2 :: cs) (List.cons_ne_nil c2 cs)
    exact ⟨c :: b, t0, by rw [hb]; rfl⟩

theorem no_prd_after_stop (b : Str) (t0 : Char)
    (h4 : ¬ Within prdTok (b ++ [t0])) (ht0 : t0 ∉ prdTok) :
    ¬ Within prdTok ((b ++ [t0]) ++ stopTok) := by
  intro hw
  rcases within_append_split hw with hw | hw | ⟨p1, p2, hp, hp1, _, ⟨u, hu⟩, _⟩
  · exact h4 hw
  · have hc : containsSub prdTok stopTok = true := (containsSub_iff _ _).2 hw
    exact absurd hc (by decide)
  · obtain ⟨q, c, hq⟩ := exists_append_single p1 hp1
    rw [hq] at hu
    have hc : c = t0 :=
      last_eq_of_append_single (q := u ++ q) (by rw [List.append_assoc]; exact hu)
    have hcp : c ∈ prdTok := by
      rw [hp, hq]
      exact List.mem_append_left p2 (List.mem_append_right q (List.mem_singleton.mpr rfl))
    rw [hc] at hcp
    exact ht0 hcp

theorem ne_of_bnot_beq {c d : Char} (h : (!(c == d)) = true) : c ≠ d := by
  intro he
  rw [he, beq_self_eq_true] at h
  exact Bool.noConfusion h

theorem splitOn_stop_end :
    ∀ (x : Str), containsSub stopTok x = false →
      (∀ (q : Str) (c : Char), x = q ++ [c] → c ∉ stopTok) →
      splitOn stopTok (x ++ stopTok) = [x, []]
  | [], _, _ => by decide
  | c :: xs, hx, hlast => by
    have hsplit : stopTok.isPrefixOf (c :: xs) = false ∧ containsSub stopTok xs = false := by
      have h2 : (stopTok.isPrefixOf (c :: xs) || containsSub stopTok xs) = false := hx
      exact ⟨by cases hb : stopTok.isPrefixOf (c :: xs) <;> simp [hb] at h2 ⊢,
             by cases hb : containsSub stopTok xs <;> simp [hb] at h2 ⊢⟩
    have hpre : stopTok.isPrefixOf (c :: (xs ++ stopTok)) = false := by
      cases hb : stopTok.isPrefixOf (c :: (xs ++ stopTok))
      · rfl
      · exfalso
        have hstart : IsStart stopTok ((c :: xs) ++ stopTok) := (isPrefixOf_iff _ _).1 hb
        by_cases hlen : (c :: xs).length ≤ stopTok.length
        · have hxstart : IsStart (c :: xs) stopTok :=
            isStart_of_isStart_le ⟨stopTok, rfl⟩ hstart hlen
          obtain ⟨q, c2, hq⟩ := exists_append_single (c :: xs) (List.cons_ne_nil c xs)
          have hc2 : c2 ∈ stopTok := by
            obtain ⟨t, ht⟩ := hxstart
            rw [← ht, hq]
            exact List.mem_append_left t
              (List.mem_append_right q (List.mem_singleton.mpr rfl))
          exact hlast q c2 hq hc2
        · have hsstart : IsStart stopTok (c :: xs) :=
            isStart_of_isStart_le hstart ⟨stopTok, rfl⟩ (by omega)
          have hcon : containsSub stopTok (c :: xs) = true :=
            (containsSub_iff _ _).2 (isStart_within hsstart)
          rw [hx] at hcon
          exact Bool.noConfusion hcon
    show splitOn stopTok (c :: (xs ++ stopTok)) = [c :: xs, []]
    rw [splitOn_cons, if_neg (by simp [hpre]),
      splitOn_stop_end xs hsplit.2 (fun q c2 hq => hlast (c :: q) c2 (by rw [hq]; rfl))]

theorem replacePlaceholders_end_terminal (b : Str) (t0 : Char)
    (hb : ∀ c ∈ b, c ≠ '.' ∧ c ≠ '?' ∧ c ≠ '!')
    (hprd : containsSub prdTok (b ++ [t0]) = false)
    (ht0 : t0 = '.' ∨ t0 = '?' ∨ t0 = '!') :
    replacePlaceholdersCore (b ++ [t0]) = (b ++ [t0]) ++ stopTok := by
  have hnoprd : containsSub prdTok ((b ++ [t0]) ++ stopTok) = false := by
    rw [containsSub_false_iff]
    exact no_prd_after_stop b t0 (containsSub_false_iff.mp hprd)
      (by rcases ht0 with rfl | rfl | rfl <;> decide)
  rcases ht0 with rfl | rfl | rfl
  · show replaceAll prdTok ['.'] (replaceAll ['!'] ('!' :: stopTok) (replaceAll ['?']
      ('?' :: stopTok) (replaceAll ['.'] ('.' :: stopTok) (b ++ ['.'])))) = _
    rw [replaceAll_append_single '.' ('.' :: stopTok) b (fun hm => (hb '.' hm).1 rfl)]
    have hshape : (b ++ ('.' :: stopTok) : Str) = (b ++ ['.']) ++ stopTok := by simp
    have hq : containsSub ['?'] (b ++ ('.' :: stopTok)) = false :=
      containsSub_false_of_head _ (by
        intro y hy
        rcases List.mem_append.mp hy with hy2 | hy2
        · exact (hb y hy2).2.1
        · exact (by decide : ∀ z ∈ ('.' :: stopTok : Str), z ≠ '?') y hy2)
    have hex : containsSub ['!'] (b ++ ('.' :: stopTok)) = false :=
      containsSub_false_of_head _ (by
        intro y hy
        rcases List.mem_append.mp hy with hy2 | hy2
        · exact (hb y hy2).2.2
        · exact (by decide : ∀ z ∈ ('.' :: stopTok : Str), z ≠ '!') y hy2)
    rw [replaceAll_id _ _ _ hq, replaceAll_id _ _ _ hex,
      replaceAll_id _ _ _ (by rw [hshape]; exact hnoprd)]
    exact hshape
  · show replaceAll prdTok ['.'] (replaceAll ['!'] ('!' :: stopTok) (replaceAll ['?']
      ('?' :: stopTok) (replaceAll ['.'] ('.' :: stopTok) (b ++ ['?'])))) = _
    have hdot : containsSub ['.'] (b ++ ['?']) = false :=
      containsSub_false_of_head _ (by
        intro y hy
        rcases List.mem_append.mp hy with hy2 | hy2
        · exact (hb y hy2).1
        · rw [List.mem_singleton.mp hy2]; decide)
    rw [replaceAll_id _ _ _ hdot,
      replaceAll_append_single '?' ('?' :: stopTok) b (fun hm => (hb '?' hm).2.1 rfl)]
    have hshape : (b ++ ('?' :: stopTok) : Str) = (b ++ ['?']) ++ stopTok := by simp
    have hex : containsSub ['!'] (b ++ ('?' :: stopTok)) = false :=
      containsSub_false_of_head _ (by
        intro y hy
        rcases List.mem_append.mp hy with hy2 | hy2
        · exact (hb y hy2).2.2
        · exact (by decide : ∀ z ∈ ('?' :: stopTok : Str), z ≠ '!') y hy2)
    rw [replaceAll_id _ _ _ hex,
      replaceAll_id _ _ _ (by rw [hshape]; exact hnoprd)]
    exact hshape
  · show replaceAll prdTok ['.'] (replaceAll ['!'] ('!' :: stopTok) (replaceAll ['?']
      ('?' :: stopTok) (replaceAll ['.'] ('.' :: stopTok) (b ++ ['!'])))) = _
    have hdot : containsSub ['.'] (b ++ ['!']) = false :=
      containsSub_false_of_head _ (by
        intro y hy
        rcases List.mem_append.mp hy with hy2 | hy2
        · exact (hb y hy2).1
        · rw [List.mem_singleton.mp hy2]; decide)
    have hq2 : containsSub ['?'] (b ++ ['!']) = false :=
      containsSub_false_of_head _ (by
        intro y hy
        rcases List.mem_append.mp hy with hy2 | hy2
        · exact (hb y hy2).2.1
        · rw [List.mem_singleton.mp hy2]; decide)
    rw [replaceAll_id _ _ _ hdot, replaceAll_id _ _ _ hq2,
      replaceAll_append_single '!' ('!' :: stopTok) b (fun hm => (hb '!' hm).2.2 rfl)]
    have hshape : (b ++ ('!' :: stopTok) : Str) = (b ++ ['!']) ++ stopTok := by simp
    rw [replaceAll_id _ _ _ (by rw [hshape]; exact hnoprd)]
    exact hshape

end TextSplitter

section ClaimTheorems
open TextSplitter

/-- C1: the full pipeline `split_into_sentences`, as executed, does NOT return
`["Wait...", "What?"]` on the input `"Wait... What?"`; because
`process_special_cases` (the ellipsis handler) is never invoked and returns
`None`, each period of the ellipsis is treated as a sentence terminator and
the pipeline returns four fragments. -/
theorem c1_ellipsis_pipeline_as_executed :
    split_into_sentences "Wait... What?" = ["Wait.", ".", ".", "What?"] := by decide

/-- C2: `process_special_cases` falls off the end of its body without a
`return` statement, so for every input it evaluates to `None` rather than to
the substituted text promised by its docstring. -/
theorem c2_special_cases_returns_none :
    ∀ text : String, process_special_cases text = none := fun _ => rfl

/-- C3 counterexample: rule 4 (`re.sub("\s" + alphabets + "[.] ", " \1<prd> ", text)`)
is not literal-pattern-preserving: on the buffer `"\tJ. x"` it rewrites the
matched tab to a space, so erasing the inserted markers (deleting `<stop>` and
restoring `<prd>` to a period) does not recover the rule's input. -/
theorem c3_counterexample :
    subst tryInitialWs "\tJ. x".data = " J<prd> x".data ∧
    replaceAll prdTok ['.'] (replaceAll stopTok [] (subst tryInitialWs "\tJ. x".data)) ≠
      "\tJ. x".data := by decide

/-- C4 counterexample: on the input `" Inc. He left."` the pipeline yields
`["Inc", "He left."]` — rule 8 consumed the period after `Inc` without
reproducing it — so the non-whitespace characters of the concatenated output
differ from those of the trimmed, newline-collapsed input: the lost period
cannot be accounted for by re-inserted whitespace delimiters. -/
theorem c4_counterexample :
    split_into_sentences " Inc. He left." = ["Inc", "He left."] ∧
    ((split_into_sentences " Inc. He left.").foldr (fun s acc => s.data ++ acc) []).filter
        (fun c => !isPyWs c) ≠
      (strip (replaceAll ['\n'] [' '] " Inc. He left.".data)).filter
        (fun c => !isPyWs c) := by decide

/-- C5 counterexample: `"J. Smith went home."` is an output sentence of the
full pipeline, yet re-running the boundary materializer and the extractor on
it splits at the restored initial's period and yields two sentences, not the
same single sentence. -/
theorem c5_counterexample :
    "J. Smith went home." ∈ split_into_sentences " J. Smith went home. He left." ∧
    create_sentences (replace_placeholders "J. Smith went home.") =
      ["J.", "Smith went home."] ∧
    create_sentences (replace_placeholders "J. Smith went home.") ≠
      ["J. Smith went home."] := by decide

/-- C6: a single letter followed by a period, preceded by whitespace and
followed by a space, is protected as an initial: the pipeline returns exactly
the two claimed sentences on `" J. Smith went home. He left."`. -/
theorem c6_single_initial_does_not_split :
    split_into_sentences " J. Smith went home. He left." =
      ["J. Smith went home.", "He left."] := by decide

/-- C8: the timing decorator returns the decorated function's result
unchanged: apart from the printed report, `timer f` is observationally
equivalent to `f`. -/
theorem c8_timer_preserves_result {α β : Type} (fname : String) (clock : Nat → Nat)
    (f : α → β) (a : α) : (timer fname clock f a).1 = f a := rfl

/-- C3 (amended): rules 1, 2, 3, 6, 7, 9 and 10 are literal-pattern-preserving
in the claimed sense — restoring `<prd>` to a period in the replacement
recovers the matched text exactly.  Rule 5 only inserts `<stop>` (deleting it
recovers the match), while rule 8 replaces the matched period itself with
`<stop>` (recovery needs `<stop>` rewritten back to a period, not deleted),
and rule 4 rewrites the matched leading whitespace character to a space, so
its erasure recovers the match exactly when that whitespace is a literal
space. -/
theorem c3_amended (l repl : Str) (k : Nat) :
    (tryTitle l = some (repl, k) → erasePrd repl = l.take (k + 1)) ∧
    (trySite l = some (repl, k) → erasePrd repl = l.take (k + 1)) ∧
    (tryDecimal l = some (repl, k) → erasePrd repl = l.take (k + 1)) ∧
    (tryInitialWs l = some (repl, k) →
      (erasePrd repl = l.take (k + 1) ↔ l.take 1 = [' '])) ∧
    (tryAcronymStarter l = some (repl, k) → eraseStop repl = l.take (k + 1)) ∧
    (tryAcronym3 l = some (repl, k) → erasePrd repl = l.take (k + 1)) ∧
    (tryAcronym2 l = some (repl, k) → erasePrd repl = l.take (k + 1)) ∧
    (trySuffixStarter l = some (repl, k) → eraseStopDot repl = l.take (k + 1)) ∧
    (trySuffix l = some (repl, k) → erasePrd repl = l.take (k + 1)) ∧
    (tryInitial l = some (repl, k) → erasePrd repl = l.take (k + 1)) :=
  ⟨fun h => (tryTitle_elim h).1, fun h => (trySite_elim h).1,
   fun h => (tryDecimal_elim h).1, fun h => (tryInitialWs_elim h).1,
   fun h => (tryAcronymStarter_elim h).1, fun h => (tryAcronym3_elim h).1,
   fun h => (tryAcronym2_elim h).1, fun h => (trySuffixStarter_elim h).1,
   fun h => (trySuffix_elim h).1, fun h => (tryInitial_elim h).1⟩

/-- Witness for `c3_amended`, instantiating every rule at a concrete match. -/
theorem c3_amended_witness :
    erasePrd (['M','r'] ++ prdTok) = ("Mr. X".data).take 3 ∧
    erasePrd (prdTok ++ ['c','o','m']) = (".com x".data).take 4 ∧
    erasePrd (['1'] ++ prdTok ++ ['2']) = ("1.2".data).take 3 ∧
    (erasePrd ([' ', 'J'] ++ prdTok ++ [' ']) = (" J. x".data).take 4 ↔
      (" J. x".data).take 1 = [' ']) ∧
    eraseStop (['U','.','S','.'] ++ stopTok ++ [' '] ++ "He ".data) =
      ("U.S. He left".data).take 8 ∧
    erasePrd (['a'] ++ prdTok ++ ['b'] ++ prdTok ++ ['c'] ++ prdTok) =
      ("a.b.c.".data).take 6 ∧
    erasePrd (['a'] ++ prdTok ++ ['b'] ++ prdTok) = ("a.b.".data).take 4 ∧
    eraseStopDot ([' '] ++ "Inc".data ++ stopTok ++ [' '] ++ "He ".data) =
      (" Inc. He left".data).take 9 ∧
    erasePrd ([' '] ++ "Inc".data ++ prdTok) = (" Inc.".data).take 5 ∧
    erasePrd ([' ', 'a'] ++ prdTok) = (" a.".data).take 3 := by
  refine ⟨?_, ?_, ?_, ?_, ?_, ?_, ?_, ?_, ?_, ?_⟩
  · exact (c3_amended ("Mr. X".data) (['M','r'] ++ prdTok) 2).1 (by decide)
  · exact (c3_amended (".com x".data) (prdTok ++ ['c','o','m']) 3).2.1 (by decide)
  · exact (c3_amended ("1.2".data) (['1'] ++ prdTok ++ ['2']) 2).2.2.1 (by decide)
  · exact (c3_amended (" J. x".data) ([' ', 'J'] ++ prdTok ++ [' ']) 3).2.2.2.1 (by decide)
  · exact (c3_amended ("U.S. He left".data)
      (['U','.','S','.'] ++ stopTok ++ [' '] ++ "He ".data) 7).2.2.2.2.1 (by decide)
  · exact (c3_amended ("a.b.c.".data)
      (['a'] ++ prdTok ++ ['b'] ++ prdTok ++ ['c'] ++ prdTok) 5).2.2.2.2.2.1 (by decide)
  · exact (c3_amended ("a.b.".data)
      (['a'] ++ prdTok ++ ['b'] ++ prdTok) 3).2.2.2.2.2.2.1 (by decide)
  · exact (c3_amended (" Inc. He left".data)
      ([' '] ++ "Inc".data ++ stopTok ++ [' '] ++ "He ".data)
      8).2.2.2.2.2.2.2.1 (by decide)
  · exact (c3_amended (" Inc.".data)
      ([' '] ++ "Inc".data ++ prdTok) 4).2.2.2.2.2.2.2.2.1 (by decide)
  · exact (c3_amended (" a.".data) ([' ', 'a'] ++ prdTok) 2).2.2.2.2.2.2.2.2.2 (by decide)

/-- C4 (amended): the character-for-character reconstruction property fails
(see the counterexample: rule 8 consumes the matched period), but the
bookkeeping-token part of the claim holds — neither `<stop>` nor `<prd>`
ever appears in any output sentence. -/
theorem c4_amended (t s : String) (h : s ∈ split_into_sentences t) :
    containsSub stopTok s.data = false ∧ containsSub prdTok s.data = false := by
  obtain ⟨f, hf, hmk⟩ := List.mem_map.mp h
  have hsdata : s.data = f := by rw [← hmk]
  rw [hsdata]
  have hf2 : f ∈ createSentencesCore (replaceAll prdTok ['.'] (replaceAll ['!']
      ('!' :: stopTok) (replaceAll ['?'] ('?' :: stopTok) (replaceAll ['.']
        ('.' :: stopTok) (specialCharsCore (substitutionsCore (replaceAll ['\n'] [' ']
          ([' '] ++ t.data ++ [' ',' '])))))))) := hf
  obtain ⟨g, hg, rfl, _⟩ := createSentencesCore_frag hf2
  constructor
  · rw [containsSub_false_iff]
    intro hw
    exact ((splitOn_spec stopTok (by decide) _).2.2 g hg).2
      (within_trans hw (strip_within g))
  · rw [containsSub_false_iff]
    intro hw
    have hwB : Within prdTok (replaceAll prdTok ['.'] (replaceAll ['!'] ('!' :: stopTok)
        (replaceAll ['?'] ('?' :: stopTok) (replaceAll ['.'] ('.' :: stopTok)
          (specialCharsCore (substitutionsCore (replaceAll ['\n'] [' ']
            ([' '] ++ t.data ++ [' ',' '])))))))) :=
      within_trans (within_trans hw (strip_within g))
        ((splitOn_spec stopTok (by decide) _).2.2 g hg).1
    exact replaceAll_no_within prdTok ['.'] (by decide) (by decide) (by decide) _ hwB

/-- Witness for `c4_amended`. -/
theorem c4_amended_witness :
    containsSub stopTok ("He left." : String).data = false ∧
      containsSub prdTok ("He left." : String).data = false :=
  c4_amended " Inc. He left." "He left." (by decide)

/-- C7: every sentence produced by `create_sentences` (and hence by the full
pipeline) is already trimmed and is non-empty after trimming. -/
theorem c7_sentences_nonempty_trimmed (t s : String) :
    (s ∈ split_into_sentences t → strip s.data = s.data ∧ s ≠ "") ∧
    (s ∈ create_sentences t → strip s.data = s.data ∧ s ≠ "") := by
  have key : ∀ (l f : Str), f ∈ createSentencesCore l → strip f = f ∧ f ≠ [] := by
    intro l f hf
    obtain ⟨g, _, rfl, hne⟩ := createSentencesCore_frag hf
    exact ⟨strip_idem g, hne⟩
  constructor
  · intro h
    obtain ⟨f, hf, hmk⟩ := List.mem_map.mp h
    have hsdata : s.data = f := by rw [← hmk]
    have hf2 : f ∈ createSentencesCore (replacePlaceholdersCore (specialCharsCore
        (substitutionsCore (replaceAll ['\n'] [' ']
          ([' '] ++ t.data ++ [' ',' ']))))) := hf
    obtain ⟨h1, h2⟩ := key _ f hf2
    refine ⟨by rw [hsdata]; exact h1, ?_⟩
    intro he
    apply h2
    rw [← hsdata, he]
  · intro h
    obtain ⟨f, hf, hmk⟩ := List.mem_map.mp h
    have hsdata : s.data = f := by rw [← hmk]
    obtain ⟨h1, h2⟩ := key t.data f hf
    refine ⟨by rw [hsdata]; exact h1, ?_⟩
    intro he
    apply h2
    rw [← hsdata, he]

/-- Witness for `c7_sentences_nonempty_trimmed`. -/
theorem c7_witness :
    (strip ("He left." : String).data = ("He left." : String).data ∧
      ("He left." : String) ≠ "") ∧
    (strip ("x" : String).data = ("x" : String).data ∧ ("x" : String) ≠ "") :=
  ⟨(c7_sentences_nonempty_trimmed " J. Smith went home. He left." "He left.").1 (by decide),
   (c7_sentences_nonempty_trimmed "x" "x").2 (by decide)⟩

/-- C5 (amended): re-running the boundary materializer and the extractor on a
trimmed, non-empty string that contains neither marker token and in which the
terminal characters `.`, `?`, `!` occur at most as the final character yields
that same single sentence.  (The original claim over arbitrary output
sentences fails, because an output sentence may contain a protected interior
period that the second pass treats as a boundary — see the counterexample.) -/
theorem c5_amended (s : String) (h1 : strip s.data = s.data) (h2 : s.data ≠ [])
    (h3 : (s.data.dropLast).all
      (fun c => !(c == '.') && !(c == '?') && !(c == '!')) = true)
    (h4 : containsSub prdTok s.data = false)
    (h5 : containsSub stopTok s.data = false) :
    create_sentences (replace_placeholders s) = [s] := by
  obtain ⟨l⟩ := s
  obtain ⟨b, t0, rfl⟩ := exists_append_single l h2
  have h1c : strip (b ++ [t0]) = b ++ [t0] := h1
  have h4c : containsSub prdTok (b ++ [t0]) = false := h4
  have h5c : containsSub stopTok (b ++ [t0]) = false := h5
  have h3b : ∀ c ∈ b, (!(c == '.') && !(c == '?') && !(c == '!')) = true := by
    intro c hc
    apply List.all_eq_true.mp h3
    show c ∈ ((b ++ [t0] : Str)).dropLast
    rw [dropLast_append_single]
    exact hc
  have hb3 : ∀ c ∈ b, c ≠ '.' ∧ c ≠ '?' ∧ c ≠ '!' := by
    intro c hc
    have h6 := h3b c hc
    rw [Bool.and_eq_true, Bool.and_eq_true] at h6
    exact ⟨ne_of_bnot_beq h6.1.1, ne_of_bnot_beq h6.1.2, ne_of_bnot_beq h6.2⟩
  by_cases ht : t0 = '.' ∨ t0 = '?' ∨ t0 = '!'
  · show (createSentencesCore (replacePlaceholdersCore (b ++ [t0]))).map String.mk =
      [String.mk (b ++ [t0])]
    rw [replacePlaceholders_end_terminal b t0 hb3 h4c ht]
    unfold createSentencesCore
    rw [splitOn_stop_end (b ++ [t0]) h5c
      (fun q c hq => by
        rw [last_eq_of_append_single hq.symm]
        rcases ht with rfl | rfl | rfl <;> decide)]
    rw [show (([b ++ [t0], []] : List Str).map strip) = [strip (b ++ [t0]), strip []]
        from rfl,
      show strip ([] : Str) = [] from rfl, h1c]
    rw [List.filter_cons, if_pos (by simp), List.filter_cons, if_neg (by simp),
      List.filter_nil]
    rfl
  · push_neg at ht
    have hall : ∀ c ∈ (b ++ [t0] : Str), c ≠ '.' ∧ c ≠ '?' ∧ c ≠ '!' := by
      intro c hc
      rcases List.mem_append.mp hc with h6 | h6
      · exact hb3 c h6
      · rw [List.mem_singleton.mp h6]
        exact ht
    show (createSentencesCore (replaceAll prdTok ['.'] (replaceAll ['!'] ('!' :: stopTok)
      (replaceAll ['?'] ('?' :: stopTok) (replaceAll ['.'] ('.' :: stopTok)
        (b ++ [t0])))))).map String.mk = [String.mk (b ++ [t0])]
    rw [replaceAll_id _ _ _ (containsSub_false_of_head _ (fun c hc => (hall c hc).1)),
      replaceAll_id _ _ _ (containsSub_false_of_head _ (fun c hc => (hall c hc).2.1)),
      replaceAll_id _ _ _ (containsSub_false_of_head _ (fun c hc => (hall c hc).2.2)),
      replaceAll_id _ _ _ h4c]
    unfold createSentencesCore
    rw [splitOn_not_contains stopTok _ h5c]
    rw [show (([b ++ [t0]] : List Str).map strip) = [strip (b ++ [t0])] from rfl, h1c]
    rw [List.filter_cons, if_pos (by simp), List.filter_nil]
    rfl

/-- Witness for `c5_amended`. -/
theorem c5_amended_witness :
    create_sentences (replace_placeholders "He left.") = ["He left."] :=
  c5_amended "He left." (by decide) (by decide) (by decide) (by decide) (by decide)

/-- C9: on the empty input, and on every input consisting only of whitespace
characters, the full pipeline returns the empty list of sentences. -/
theorem c9_whitespace_input_yields_no_sentences (s : String)
    (h : ∀ c ∈ s.data, isPyWs c = true) : split_into_sentences s = [] := by
  have hpad : ∀ c ∈ ([' '] ++ s.data ++ [' ',' '] : Str), isPyWs c = true := by
    intro c hc
    rcases List.mem_append.mp hc with hc2 | hc2
    · rcases List.mem_append.mp hc2 with hc3 | hc3
      · rw [List.mem_singleton.mp hc3]; decide
      · exact h c hc3
    · rcases List.mem_cons.mp hc2 with h4 | hc3
      · rw [h4]; decide
      · rw [List.mem_singleton.mp hc3]; decide
  have hB1 : ∀ c ∈ replaceAll ['\n'] [' '] ([' '] ++ s.data ++ [' ',' ']),
      isPyWs c = true :=
    replaceAll_pred _ _ _ (by decide) _ hpad
  show (createSentencesCore (replacePlaceholdersCore (specialCharsCore
    (substitutionsCore (replaceAll ['\n'] [' ']
      ([' '] ++ s.data ++ [' ',' '])))))).map String.mk = []
  rw [substitutionsCore_ws_id _ hB1, specialCharsCore_ws_id _ hB1,
    replacePlaceholdersCore_ws_id _ hB1, createSentencesCore_ws _ hB1]
  rfl

/-- Witness for `c9_whitespace_input_yields_no_sentences`. -/
theorem c9_witness : split_into_sentences " \t " = [] ∧ split_into_sentences "" = [] :=
  ⟨c9_whitespace_input_yields_no_sentences " \t " (by decide),
   c9_whitespace_input_yields_no_sentences "" (by decide)⟩

/-- C10: no sentence returned by the full pipeline contains a newline
character or the substring `<stop>`. -/
theorem c10_no_newline_no_stop_in_sentences (t s : String)
    (h : s ∈ split_into_sentences t) :
    (∀ c ∈ s.data, c ≠ '\n') ∧ containsSub stopTok s.data = false := by
  obtain ⟨f, hf, hmk⟩ := List.mem_map.mp h
  have hsdata : s.data = f := by rw [← hmk]
  rw [hsdata]
  have hf2 : f ∈ createSentencesCore (replacePlaceholdersCore (specialCharsCore
      (substitutionsCore (replaceAll ['\n'] [' ']
        ([' '] ++ t.data ++ [' ',' ']))))) := hf
  obtain ⟨g, hg, rfl, _⟩ := createSentencesCore_frag hf2
  constructor
  · intro c hc
    have hcg : c ∈ g := mem_of_within (strip_within g) hc
    have hwithin : Within g (replacePlaceholdersCore (specialCharsCore
        (substitutionsCore (replaceAll ['\n'] [' ']
          ([' '] ++ t.data ++ [' ',' ']))))) :=
      ((splitOn_spec stopTok (by decide) _).2.2 g hg).1
    have hB : ∀ x ∈ replacePlaceholdersCore (specialCharsCore (substitutionsCore
        (replaceAll ['\n'] [' '] ([' '] ++ t.data ++ [' ',' '])))), x ≠ '\n' :=
      replacePlaceholdersCore_pred _ (specialCharsCore_pred _ (substitutionsCore_pred _
        (replaceAll_single_ne '\n' ' ' (by decide) _)))
    exact hB c (mem_of_within hwithin hcg)
  · rw [containsSub_false_iff]
    intro hw
    exact ((splitOn_spec stopTok (by decide) _).2.2 g hg).2
      (within_trans hw (strip_within g))

/-- Witness for `c10_no_newline_no_stop_in_sentences`. -/
theorem c10_witness :
    (∀ c ∈ ("What?" : String).data, c ≠ '\n') ∧
      containsSub stopTok ("What?" : String).data = false :=
  c10_no_newline_no_stop_in_sentences "Wait... What?" "What?" (by decide)

end ClaimTheorems
